import Mathlib

/-!
Verification of the bug-inducing-commit resolution and defect-labeling engine
of the radon repository miner.

The definitions below are a shallow embedding of
`src/iacminer/miners/repository_miner.py` (class `RepositoryMiner`) and
`src/radonminer/files.py`.  Paths and commit hashes are strings; pydriller
modification records carry optional old/new paths; Python sets are `Finset`;
Python dicts are association lists looked up by first match (insertion
shadows, which is observationally equal to Python's in-place overwrite);
the unguarded dict subscript `buggy_inducing_commits[modified_file.new_path]`
is modelled in the `Except` monad, where `Except.error ()` stands for the
`KeyError` that aborts the walk.
-/

namespace Radon

/-- Commit hashes, as in pydriller, are strings. -/
abbrev Hash := String

/-- Repository file paths are strings. -/
abbrev FPath := String

/-- pydriller's `ModificationType` (the four kinds read by the miner). -/
inductive MType where
  | ADD
  | MODIFY
  | DELETE
  | RENAME
deriving DecidableEq, Repr

/-- A pydriller modification record: `old_path`/`new_path` are `None` for
additions/deletions respectively, hence `Option`. -/
structure Modification where
  old_path : Option FPath
  new_path : Option FPath
  change_type : MType
deriving DecidableEq, Repr

/-- A commit as the miner reads it: its hash and its file modifications. -/
structure Commit where
  hash : Hash
  modifications : List Modification
deriving DecidableEq, Repr

/-- Modelled from the spec: `iacminer.filters.is_ansible_file` is not under
`src/`; the walk only needs an abstract predicate deciding whether a
(possibly absent) path is a file of the target language, so the embedding
takes it as a parameter. -/
abbrev AnsiblePred := Option FPath → Bool

/-- The blame collaborator `git_repo.get_commits_last_modified_lines`:
for a commit and one of its modifications it returns a dict from path to the
set of hashes that last modified the touched lines (spec section 6). -/
abbrev Blame := Commit → Modification → List (FPath × Finset Hash)

/-- Lookup in the blame dict at an optional path: a `None` path can never be
a key of the string-keyed dict, and a missing key gives `none`
(Python would raise `KeyError`). -/
def blameGet (d : List (FPath × Finset Hash)) (k : Option FPath) : Option (Finset Hash) :=
  k.bind (fun p => (d.find? (fun e => e.1 = p)).map (fun e => e.2))

/-- The `renamed_files` dict threaded through the walk: keys and values are
the optional paths stored by the Python code. -/
abbrev RenameMap := List (Option FPath × Option FPath)

/-- Dict lookup (first binding wins, matching shadowing on insert). -/
def alistGet (d : RenameMap) (k : Option FPath) : Option (Option FPath) :=
  (d.find? (fun e => e.1 = k)).map (fun e => e.2)

/-- Dict store `d[k] = v`: the new binding shadows any previous one. -/
def alistInsert (d : RenameMap) (k v : Option FPath) : RenameMap :=
  (k, v) :: d

/-- Modelled from the spec: `iacminer.entities.file.FixingFile` is not under
`src/`.  Per the spec a record holds the canonical filepath, the set
`inducing_commits` (called `bics` in the source) and `fix_commit`; the
repository's analogous class `radonminer.files.FixingFile` compares records
by `filepath` alone, which is the equality `fixing_file in fixing_files`
uses. -/
structure FixingFile where
  filepath : Option FPath
  bics : Finset Hash
  fix_commit : Hash
deriving DecidableEq

/-- The mutable state of one `get_fixing_files` walk: the (prunable)
`self.fixing_commits` set, the local `renamed_files` dict and the
accumulating `fixing_files` list. -/
structure MinerState where
  fixing_commits : Finset Hash
  renamed_files : RenameMap
  fixing_files : List FixingFile
deriving DecidableEq

/-- Python's `fixing_files[fixing_files.index(ff)].bics.update(s)`: union
`s` into the first record whose filepath equals `p`. -/
def updateFirst (l : List FixingFile) (p : Option FPath) (s : Finset Hash) : List FixingFile :=
  match l with
  | [] => []
  | f :: fs =>
    if f.filepath = p then { f with bics := f.bics ∪ s } :: fs
    else f :: updateFirst fs p s

/-- First record stored under filepath `p`, if any. -/
def findRecord (l : List FixingFile) (p : Option FPath) : Option FixingFile :=
  l.find? (fun f => f.filepath = p)

/-- The commit-level guard `any(filters.is_ansible_file(m.new_path) for m in
commit.modifications)` (repository_miner.py line 109). -/
def anyAnsible (ansible : AnsiblePred) (c : Commit) : Bool :=
  c.modifications.any (fun m => ansible m.new_path)

/-- The rename-tracking step of the loop body (repository_miner.py lines
122-128): on a RENAME, map `old_path` to the canonical path of `new_path`
when one exists, else begin tracking `old_path -> new_path` provided the
commit is (still) a fixing commit. -/
def renameUpdate (fcs : Finset Hash) (c : Commit) (renamed : RenameMap)
    (mf : Modification) : RenameMap :=
  if mf.change_type = MType.RENAME then
    match alistGet renamed mf.new_path with
    | some canon => alistInsert renamed mf.old_path canon
    | none =>
      if c.hash ∈ fcs then alistInsert renamed mf.old_path mf.new_path
      else renamed
  else renamed

/-- The value of the local `renamed_files` dict after the rename-tracking
step of one loop iteration. -/
def modRenamed (st : MinerState) (c : Commit) (mf : Modification) : RenameMap :=
  renameUpdate st.fixing_commits c st.renamed_files mf

/-- The resolved (canonical) path of a file change:
`renamed_files.get(modified_file.new_path, modified_file.new_path)`
(repository_miner.py line 139), read after this iteration's rename update. -/
def modPath (st : MinerState) (c : Commit) (mf : Modification) : Option FPath :=
  (alistGet (modRenamed st c mf) mf.new_path).getD mf.new_path

/-- One iteration of `for modified_file in commit.modifications`
(repository_miner.py lines 116-148).  `Except.error ()` is the `KeyError`
raised by `buggy_inducing_commits[modified_file.new_path]` when the blame
dict is non-empty but lacks that key. -/
def processMod (blame : Blame) (c : Commit) (st : MinerState)
    (mf : Modification) : Except Unit MinerState :=
  if mf.change_type ≠ MType.MODIFY ∧ mf.change_type ≠ MType.RENAME then
    Except.ok st
  else if c.hash ∉ st.fixing_commits then
    Except.ok { st with renamed_files := modRenamed st c mf }
  else if blame c mf = [] then
    Except.ok { st with renamed_files := modRenamed st c mf }
  else
    match blameGet (blame c mf) mf.new_path with
    | none => Except.error ()
    | some bics =>
      if st.fixing_files.any (fun g => g.filepath = modPath st c mf) then
        Except.ok { st with renamed_files := modRenamed st c mf,
                            fixing_files := updateFirst st.fixing_files (modPath st c mf) bics }
      else
        Except.ok { st with renamed_files := modRenamed st c mf,
                            fixing_files := st.fixing_files ++ [⟨modPath st c mf, bics, c.hash⟩] }

/-- One iteration of the commit walk (repository_miner.py lines 102-148):
skip (and prune from the fixing set) commits touching no target-type file,
otherwise run the modification loop. -/
def processCommit (ansible : AnsiblePred) (blame : Blame) (st : MinerState)
    (c : Commit) : Except Unit MinerState :=
  if anyAnsible ansible c = false then
    Except.ok
      (if c.hash ∈ st.fixing_commits then
        { st with fixing_commits := st.fixing_commits.erase c.hash }
      else st)
  else
    c.modifications.foldlM (processMod blame c) st

/-- The backward walk over a given commit sequence. -/
def runWalk (ansible : AnsiblePred) (blame : Blame) (cs : List Commit)
    (st : MinerState) : Except Unit MinerState :=
  cs.foldlM (processCommit ansible blame) st

/-- The ordering step `[hash for hash in self.commits_hash if hash in
self.fixing_commits]` (repository_miner.py line 92). -/
def sortedFixing (commits : List Commit) (fc : Finset Hash) : List Hash :=
  (commits.map Commit.hash).filter (fun h => decide (h ∈ fc))

/-- Drop commits strictly before the one with hash `h`. -/
def dropTill (h : Hash) (l : List Commit) : List Commit :=
  l.dropWhile (fun c => c.hash ≠ h)

/-- Keep commits up to and including the first one with hash `h`. -/
def takeTill (h : Hash) : List Commit → List Commit
  | [] => []
  | c :: cs => if c.hash = h then [c] else c :: takeTill h cs

/-- The pydriller traversal `RepositoryMining(from_commit=last_fix,
to_commit=first_fix, reversed_order=True)`: the branch segment between the
two hashes, newest first. -/
def walkList (commits : List Commit) (first last : Hash) : List Commit :=
  (takeTill last (dropTill first commits)).reverse

/-- The commits one `get_fixing_files` call visits, given the miner's
fixing-commit set. -/
def minerWalkList (commits : List Commit) (fc : Finset Hash) : List Commit :=
  walkList commits ((sortedFixing commits fc).headD "")
    ((sortedFixing commits fc).getLastD "")

/-- `RepositoryMiner.get_fixing_files` (repository_miner.py lines 80-150),
returning the whole final state: the record list the Python function
returns together with the pruned `self.fixing_commits` it leaves behind. -/
def get_fixing_files_run (commits : List Commit) (ansible : AnsiblePred)
    (blame : Blame) (fc : Finset Hash) : Except Unit MinerState :=
  if (sortedFixing commits fc).isEmpty then
    Except.ok ⟨fc, [], []⟩
  else
    runWalk ansible blame (minerWalkList commits fc) ⟨fc, [], []⟩

/-- The value `get_fixing_files` actually returns: the fixing-file records. -/
def get_fixing_files (commits : List Commit) (ansible : AnsiblePred)
    (blame : Blame) (fc : Finset Hash) : Except Unit (List FixingFile) :=
  (get_fixing_files_run commits ansible blame fc).map (fun st => st.fixing_files)

/-- `RepositoryMiner.mine` (repository_miner.py lines 152-182) after
`set_fixing_commits` has produced `fc`.  The labeler is abstract:
`iacminer.miners.labeling` is not under `src/`, and the claims need only
that each fixing file contributes `labeler file` to the output. -/
def mine {L : Type} (commits : List Commit) (ansible : AnsiblePred)
    (blame : Blame) (labeler : FixingFile → List L) (fc : Finset Hash) :
    Except Unit (List L) :=
  if fc = ∅ then Except.ok []
  else
    (get_fixing_files commits ansible blame fc).map
      (fun files => files.foldl (fun acc f => acc ++ labeler f) [])

/-- An issue-tracker event as `set_fixing_commits` reads it: the event type
string and the optional attached commit id. -/
structure IssueEvent where
  event : String
  commit_id : Option Hash
deriving DecidableEq, Repr

/-- ASCII lowercasing of one character, as Python's `str.lower` acts on the
ASCII event-type strings the tracker produces. -/
def lowerChar (c : Char) : Char :=
  if 'A' ≤ c ∧ c ≤ 'Z' then Char.ofNat (c.toNat + 32) else c

/-- Python's `e.event.lower()` on the ASCII event names. -/
def lowerStr (s : String) : String :=
  ⟨s.data.map lowerChar⟩

/-- The event loop body of `set_fixing_commits` (repository_miner.py lines
73-78): add the commit id of every merged/closed event that carries one.
Python's `e.commit_id` truthiness also rejects the empty string. -/
def processEvents (evs : List IssueEvent) (fc : Finset Hash) : Finset Hash :=
  evs.foldl
    (fun acc e =>
      match e.commit_id with
      | some cid =>
        if (lowerStr e.event = "merged" ∨ lowerStr e.event = "closed") ∧ cid ≠ "" then
          insert cid acc
        else acc
      | none => acc)
    fc

/-- `RepositoryMiner.set_fixing_commits` issue loop (repository_miner.py
lines 67-78), with each issue given by its event list.  Note the source's
`return None` on an issue without events: it aborts the whole loop, so later
issues are never processed. -/
def set_fixing_commits (issues : List (List IssueEvent)) (fc : Finset Hash) :
    Finset Hash :=
  match issues with
  | [] => fc
  | evs :: rest =>
    if evs = [] then fc
    else set_fixing_commits rest (processEvents evs fc)

/-- Modelled from the spec: the identification step as section 4.1 describes
it, where an issue without events "contributes nothing and processing
continues (does not abort the whole identification step)". -/
def set_fixing_commits_spec (issues : List (List IssueEvent)) (fc : Finset Hash) :
    Finset Hash :=
  match issues with
  | [] => fc
  | evs :: rest => set_fixing_commits_spec rest (processEvents evs fc)

/-- `radonminer.files.FailureProneFile` (files.py lines 51-68). -/
structure FailureProneFile where
  filepath : FPath
  commit : Hash
  fixing_commit : Hash
deriving DecidableEq, Repr

/-- `FailureProneFileEncoder.default` (files.py lines 5-14): the JSON object
produced for a labeled file, as its key/value list. -/
def encodeFailureProneFile (f : FailureProneFile) : List (String × String) :=
  [("filepath", f.filepath), ("commit", f.commit), ("fixing_commit", f.fixing_commit)]

/-- `FailureProneFileDecoder.object_hook` (files.py lines 21-25): rebuild a
record from a decoded JSON object; a missing key would raise, hence
`Option`. -/
def objectHook (o : List (String × String)) : Option FailureProneFile :=
  match (o.find? (fun e => e.1 = "filepath")).map (fun e => e.2),
        (o.find? (fun e => e.1 = "commit")).map (fun e => e.2),
        (o.find? (fun e => e.1 = "fixing_commit")).map (fun e => e.2) with
  | some fp, some c, some fx => some ⟨fp, c, fx⟩
  | _, _, _ => none

/-- Record-collection refinement: every record of `l` is still present in
`l'` under the same filepath key, with the same fixing commit and at least
the same inducing commits.  This is the frame property the walk maintains
on `fixing_files`. -/
def RecordMono (l l' : List FixingFile) : Prop :=
  ∀ p r, findRecord l p = some r →
    ∃ r', findRecord l' p = some r' ∧ r'.fix_commit = r.fix_commit ∧
      r'.filepath = r.filepath ∧ r.bics ⊆ r'.bics

/-- Target-type predicate accepting every path, for the concrete runs. -/
def exAnsible : AnsiblePred := fun _ => true

/-- Concrete branch, oldest first: `c3` fixes by modifying `x`; `ca` renames
`x` to `y`; `c5` fixes by modifying `y`. -/
def exCommits1 : List Commit :=
  [⟨"c3", [⟨some "x", some "x", MType.MODIFY⟩]⟩,
   ⟨"ca", [⟨some "x", some "y", MType.RENAME⟩]⟩,
   ⟨"c5", [⟨some "y", some "y", MType.MODIFY⟩]⟩]

/-- Blame data for `exCommits1`: `c5`'s change to `y` blames `b2`, `c3`'s
change to `x` blames `b1`, nothing else. -/
def exBlame1 : Blame := fun c _ =>
  if c.hash = "c5" then [("y", {"b2"})]
  else if c.hash = "c3" then [("x", {"b1"})] else []

/-- Concrete branch, oldest first: two fixing commits `f2` then `f1`, both
modifying the same file `p`. -/
def exCommits4 : List Commit :=
  [⟨"f2", [⟨some "p", some "p", MType.MODIFY⟩]⟩,
   ⟨"f1", [⟨some "p", some "p", MType.MODIFY⟩]⟩]

/-- Blame data where the newest fix `f1` yields no data and the older fix
`f2` blames `b`. -/
def exBlame4 : Blame := fun c _ => if c.hash = "f2" then [("p", {"b"})] else []

/-- Blame data excluding only the queried commit itself: `f1` blames `h0`,
and the older `f2` blames the newer fixing commit `f1`. -/
def exBlame6 : Blame := fun c _ =>
  if c.hash = "f1" then [("p", {"h0"})]
  else if c.hash = "f2" then [("p", {"f1"})] else []

/-- Blame data whose non-empty result is keyed by a path other than the
queried change's `new_path`. -/
def exBlame9 : Blame := fun c _ => if c.hash = "f1" then [("q", {"b"})] else []

/-- One-commit branch: the fixing commit `f1` modifies `p`. -/
def exCommits6 : List Commit := [⟨"f1", [⟨some "p", some "p", MType.MODIFY⟩]⟩]

/-- Blame data for `exCommits6`: `f1`'s change to `p` blames the strictly
older commit `h0`. -/
def exBlameC6 : Blame := fun c _ => if c.hash = "f1" then [("p", {"h0"})] else []

/-- The file change modifying `p` in place, shared by the concrete commits. -/
def exModP : Modification := ⟨some "p", some "p", MType.MODIFY⟩

/-- The newer fixing commit `f1`, modifying `p`. -/
def exF1 : Commit := ⟨"f1", [exModP]⟩

/-- The older fixing commit `f2`, modifying `p`. -/
def exF2 : Commit := ⟨"f2", [exModP]⟩

/-- A walk start state: both fixes pending, no records yet. -/
def exSt40 : MinerState := ⟨{"f1", "f2"}, [], []⟩

/-- A mid-walk state: `f1`'s record for `p` exists, `f2` not yet visited. -/
def exSt4 : MinerState := ⟨{"f1", "f2"}, [], [⟨some "p", {"h0"}, "f1"⟩]⟩

/-- The state after also visiting `f2` under `exBlame6`: `f2`'s evidence is
unioned into `f1`'s record. -/
def exSt4' : MinerState := ⟨{"f1", "f2"}, [], [⟨some "p", {"h0", "f1"}, "f1"⟩]⟩

/-- Every inducing commit recorded in `l` is strictly older (under `lt`)
than the record's fixing commit. -/
def BicsBound (lt : Hash → Hash → Prop) (l : List FixingFile) : Prop :=
  ∀ r ∈ l, ∀ b ∈ r.bics, lt b r.fix_commit

/-- Decidable equality of run outcomes, for evaluating the model on concrete
inputs. -/
instance {ε α : Type} [DecidableEq ε] [DecidableEq α] : DecidableEq (Except ε α) :=
  fun a b =>
    match a, b with
    | .ok x, .ok y => if h : x = y then .isTrue (by rw [h]) else .isFalse (by simp [h])
    | .error x, .error y => if h : x = y then .isTrue (by rw [h]) else .isFalse (by simp [h])
    | .ok _, .error _ => .isFalse (by simp)
    | .error _, .ok _ => .isFalse (by simp)

/-! Generic facts about `Except`-monadic folds, used to carry invariants
through the modification loop and the commit walk. -/

theorem ok_bind {σ τ : Type} (a : σ) (k : σ → Except Unit τ) :
    (Except.ok a >>= k) = k a := rfl

theorem error_bind {σ τ : Type} (k : σ → Except Unit τ) :
    ((Except.error () : Except Unit σ) >>= k) = Except.error () := rfl

theorem foldlM_inv {α σ : Type} {f : σ → α → Except Unit σ} {P : σ → Prop}
    (hf : ∀ s a s', f s a = .ok s' → P s → P s') :
    ∀ (l : List α) (s s' : σ), l.foldlM f s = .ok s' → P s → P s'
  | [], s, s', h, hp => by
    rw [List.foldlM_nil] at h
    cases h
    exact hp
  | a :: l, s, s', h, hp => by
    rw [List.foldlM_cons] at h
    cases hfa : f s a with
    | error e =>
      rw [hfa] at h
      exact absurd ((error_bind _) ▸ h) (by simp)
    | ok s1 =>
      rw [hfa, ok_bind] at h
      exact foldlM_inv hf l s1 s' h (hf s a s1 hfa hp)

theorem foldlM_rel {α σ : Type} {f : σ → α → Except Unit σ} {R : σ → σ → Prop}
    (hrefl : ∀ s, R s s) (htrans : ∀ a b c, R a b → R b c → R a c)
    (hf : ∀ s a s', f s a = .ok s' → R s s') :
    ∀ (l : List α) (s s' : σ), l.foldlM f s = .ok s' → R s s'
  | [], s, s', h => by
    rw [List.foldlM_nil] at h
    cases h
    exact hrefl s
  | a :: l, s, s', h => by
    rw [List.foldlM_cons] at h
    cases hfa : f s a with
    | error e =>
      rw [hfa] at h
      exact absurd ((error_bind _) ▸ h) (by simp)
    | ok s1 =>
      rw [hfa, ok_bind] at h
      exact htrans s s1 s' (hf s a s1 hfa) (foldlM_rel hrefl htrans hf l s1 s' h)

theorem foldlM_total {α σ : Type} {f : σ → α → Except Unit σ}
    (hf : ∀ s a, ∃ s', f s a = .ok s') :
    ∀ (l : List α) (s : σ), ∃ s', l.foldlM f s = .ok s'
  | [], s => ⟨s, by rw [List.foldlM_nil]; rfl⟩
  | a :: l, s => by
    obtain ⟨s1, h1⟩ := hf s a
    obtain ⟨s', h'⟩ := foldlM_total hf l s1
    exact ⟨s', by rw [List.foldlM_cons, h1, ok_bind]; exact h'⟩

/-! Shape lemmas for the modification-loop body. -/

/-- A successful `processMod` step never changes the fixing-commit set. -/
theorem processMod_fc {blame : Blame} {c : Commit} {st st' : MinerState}
    {mf : Modification} (h : processMod blame c st mf = .ok st') :
    st'.fixing_commits = st.fixing_commits := by
  unfold processMod at h
  split at h
  · cases h; rfl
  split at h
  · cases h; rfl
  split at h
  · cases h; rfl
  split at h
  · exact Except.noConfusion h
  split at h
  · cases h; rfl
  · cases h; rfl

/-- Characterization of the rename map when the loop body runs on a
non-fixing commit with an empty map: it stays empty. -/
theorem modRenamed_empty {st : MinerState} {c : Commit} {mf : Modification}
    (h : c.hash ∉ st.fixing_commits) (he : st.renamed_files = []) :
    modRenamed st c mf = [] := by
  simp [modRenamed, renameUpdate, he, alistGet, h]

theorem processMod_not_fixing {blame : Blame} {c : Commit} {st : MinerState}
    {mf : Modification} (h : c.hash ∉ st.fixing_commits) :
    ∃ ρ, processMod blame c st mf = .ok ⟨st.fixing_commits, ρ, st.fixing_files⟩ ∧
      (st.renamed_files = [] → ρ = []) := by
  by_cases hA : mf.change_type ≠ MType.MODIFY ∧ mf.change_type ≠ MType.RENAME
  · exact ⟨st.renamed_files, by simp [processMod, hA], fun he => he⟩
  · exact ⟨modRenamed st c mf, by simp [processMod, hA, h], fun he => modRenamed_empty h he⟩

/-- When blame returns no data for a file change, the change contributes no
record and no pruning: only the rename map may move. -/
theorem processMod_empty_blame {blame : Blame} {c : Commit} {st : MinerState}
    {mf : Modification} (h : blame c mf = []) :
    ∃ ρ, processMod blame c st mf = .ok ⟨st.fixing_commits, ρ, st.fixing_files⟩ := by
  by_cases hA : mf.change_type ≠ MType.MODIFY ∧ mf.change_type ≠ MType.RENAME
  · exact ⟨st.renamed_files, by simp [processMod, hA]⟩
  · by_cases hB : c.hash ∉ st.fixing_commits
    · exact ⟨modRenamed st c mf, by simp [processMod, hA, hB]⟩
    · exact ⟨modRenamed st c mf, by simp [processMod, hA, hB, h]⟩

/-!  Claim C3: blame failure is local. -/

/-- Claim C3 (confirmed).  If the blame primitive returns no data for the
file change `mf` of commit `c`, the modification-loop step neither creates
nor updates any fixing-file record and does not prune, and the loop goes on
to process the remaining file changes `rest` from the resulting state
instead of aborting. -/
theorem blame_empty_is_local (blame : Blame) (c : Commit) (st : MinerState)
    (mf : Modification) (rest : List Modification)
    (h : blame c mf = []) :
    ∃ st', processMod blame c st mf = .ok st' ∧
      st'.fixing_files = st.fixing_files ∧
      st'.fixing_commits = st.fixing_commits ∧
      (mf :: rest).foldlM (processMod blame c) st =
        rest.foldlM (processMod blame c) st' := by
  obtain ⟨ρ, hok⟩ := @processMod_empty_blame blame c st mf h
  exact ⟨⟨st.fixing_commits, ρ, st.fixing_files⟩, hok, rfl, rfl, by
    rw [List.foldlM_cons, hok, ok_bind]⟩

/-- Witness for C3 at a concrete input. -/
theorem blame_empty_is_local_witness :
    ∃ st', processMod (fun _ _ => []) ⟨"f1", [⟨some "p", some "p", MType.MODIFY⟩]⟩
        ⟨{"f1"}, [], []⟩ ⟨some "p", some "p", MType.MODIFY⟩ = .ok st' ∧
      st'.fixing_files = MinerState.fixing_files ⟨{"f1"}, [], []⟩ ∧
      st'.fixing_commits = MinerState.fixing_commits ⟨{"f1"}, [], []⟩ ∧
      ([⟨some "p", some "p", MType.MODIFY⟩] : List Modification).foldlM
          (processMod (fun _ _ => []) ⟨"f1", [⟨some "p", some "p", MType.MODIFY⟩]⟩)
          ⟨{"f1"}, [], []⟩ =
        ([] : List Modification).foldlM
          (processMod (fun _ _ => []) ⟨"f1", [⟨some "p", some "p", MType.MODIFY⟩]⟩) st' :=
  blame_empty_is_local (fun _ _ => []) ⟨"f1", [⟨some "p", some "p", MType.MODIFY⟩]⟩
    ⟨{"f1"}, [], []⟩ ⟨some "p", some "p", MType.MODIFY⟩ [] rfl

/-!  Claim C5: pruning of fixing commits touching no target-type file. -/

/-- Claim C5 (confirmed).  A visited commit none of whose file changes
touches a target-type file, and which is in the fixing-commit set, is
removed from that set, its file changes are not processed, and it
contributes no fixing-file record: the walk step succeeds with only the
fixing-commit set changed. -/
theorem pruning_removes_nonansible_fixing_commit
    (ansible : AnsiblePred) (blame : Blame) (st : MinerState) (c : Commit)
    (h1 : ∀ m ∈ c.modifications, ansible m.new_path = false)
    (h2 : c.hash ∈ st.fixing_commits) :
    processCommit ansible blame st c =
      .ok ⟨st.fixing_commits.erase c.hash, st.renamed_files, st.fixing_files⟩ := by
  have ha : anyAnsible ansible c = false := by
    simp only [anyAnsible, List.any_eq_false]
    intro m hm
    simp [h1 m hm]
  simp [processCommit, ha, h2]

/-- Witness for C5 at a concrete input. -/
theorem pruning_removes_nonansible_fixing_commit_witness :
    processCommit (fun o => decide (o = some "a.yml")) (fun _ _ => [])
        ⟨{"z"}, [], []⟩ ⟨"z", [⟨none, some "readme", MType.MODIFY⟩]⟩ =
      .ok ⟨({"z"} : Finset Hash).erase "z", [], []⟩ :=
  pruning_removes_nonansible_fixing_commit (fun o => decide (o = some "a.yml"))
    (fun _ _ => []) ⟨{"z"}, [], []⟩ ⟨"z", [⟨none, some "readme", MType.MODIFY⟩]⟩
    (by decide) (by decide)

/-!  Claim C8: an empty fixing-commit set yields empty output, no walk and
no blame query. -/

/-- Claim C8 (confirmed).  With an empty fixing-commit set the resolver
returns an empty record collection, `mine` returns an empty label list, and
the run is independent of the blame primitive (no blame query can influence
it) since no history walk is performed. -/
theorem empty_fixing_set_yields_empty_output {L : Type} (commits : List Commit)
    (ansible : AnsiblePred) (blame blame' : Blame) (labeler : FixingFile → List L) :
    get_fixing_files commits ansible blame ∅ = .ok [] ∧
    mine commits ansible blame labeler ∅ = .ok [] ∧
    get_fixing_files_run commits ansible blame ∅ =
      get_fixing_files_run commits ansible blame' ∅ := by
  have hs : sortedFixing commits (∅ : Finset Hash) = [] := by
    simp [sortedFixing]
  refine ⟨?_, ?_, ?_⟩
  · rw [get_fixing_files, get_fixing_files_run, hs]
    rfl
  · simp [mine]
  · rw [get_fixing_files_run, get_fixing_files_run, hs]
    rfl

/-!  Claim C10: JSON round-trip for labeled-file records. -/

/-- Claim C10 (confirmed).  Decoding the object produced by the encoder
restores every `FailureProneFile` with identical `filepath`, `commit` and
`fixing_commit`, and the serialized object carries exactly those three
fields (in particular no defect label). -/
theorem failure_prone_file_roundtrip (f : FailureProneFile) :
    objectHook (encodeFailureProneFile f) = some f ∧
    (encodeFailureProneFile f).map Prod.fst = ["filepath", "commit", "fixing_commit"] :=
  ⟨rfl, rfl⟩

/-- Witness for C10 at a concrete input. -/
theorem failure_prone_file_roundtrip_witness :
    objectHook (encodeFailureProneFile ⟨"roles/a.yml", "c7", "f9"⟩) =
      some ⟨"roles/a.yml", "c7", "f9"⟩ ∧
    (encodeFailureProneFile ⟨"roles/a.yml", "c7", "f9"⟩).map Prod.fst =
      ["filepath", "commit", "fixing_commit"] :=
  failure_prone_file_roundtrip ⟨"roles/a.yml", "c7", "f9"⟩

/-!  Claim C2: an issue without events.  The source's `return None` inside
the issue loop (repository_miner.py line 71) aborts the whole identification
step, so commits referenced by the remaining issues are dropped; the spec
says processing continues.  The run below exhibits the divergence. -/

/-- Claim C2 (code bug).  On the issue list where the first issue has no
events and the second closed a bug with commit `c1`, the source code returns
with the fixing-commit set still empty, whereas continuing with the
remaining issues (the spec's behavior, `set_fixing_commits_spec`) collects
`c1`. -/
theorem set_fixing_commits_eventless_abort :
    set_fixing_commits [[], [⟨"closed", some "c1"⟩]] ∅ = ∅ ∧
    set_fixing_commits_spec [[], [⟨"closed", some "c1"⟩]] ∅ = {"c1"} ∧
    ("c1" : Hash) ∉ set_fixing_commits [[], [⟨"closed", some "c1"⟩]] ∅ := by
  refine ⟨rfl, rfl, ?_⟩
  show ("c1" : Hash) ∉ (∅ : Finset Hash)
  simp

/-! Record-list lemmas: how `updateFirst` and append interact with the
filepath key. -/

theorem findRecord_cons (f : FixingFile) (fs : List FixingFile) (p : Option FPath) :
    findRecord (f :: fs) p = if f.filepath = p then some f else findRecord fs p := by
  by_cases h : f.filepath = p <;> simp [findRecord, List.find?_cons, h]

theorem updateFirst_map_filepath (l : List FixingFile) (p : Option FPath) (s : Finset Hash) :
    (updateFirst l p s).map FixingFile.filepath = l.map FixingFile.filepath := by
  induction l with
  | nil => rfl
  | cons f fs ih =>
    unfold updateFirst
    split
    · rfl
    · simp only [List.map_cons, ih]

theorem findRecord_updateFirst {l : List FixingFile} {p : Option FPath} {r : FixingFile}
    (q : Option FPath) (s : Finset Hash) (h : findRecord l p = some r) :
    ∃ r', findRecord (updateFirst l q s) p = some r' ∧ r'.fix_commit = r.fix_commit ∧
      r'.filepath = r.filepath ∧ r.bics ⊆ r'.bics := by
  induction l with
  | nil => simp [findRecord] at h
  | cons f fs ih =>
    rw [findRecord_cons] at h
    unfold updateFirst
    by_cases hfq : f.filepath = q
    · rw [if_pos hfq]
      by_cases hfp : f.filepath = p
      · rw [if_pos hfp] at h
        injection h with h
        subst h
        refine ⟨{ f with bics := f.bics ∪ s }, ?_, rfl, rfl, Finset.subset_union_left⟩
        rw [findRecord_cons]
        exact if_pos hfp
      · rw [if_neg hfp] at h
        refine ⟨r, ?_, rfl, rfl, Finset.Subset.refl _⟩
        rw [findRecord_cons]
        exact (if_neg hfp).trans h
    · rw [if_neg hfq]
      by_cases hfp : f.filepath = p
      · rw [if_pos hfp] at h
        injection h with h
        subst h
        exact ⟨f, by rw [findRecord_cons]; exact if_pos hfp, rfl, rfl, Finset.Subset.refl _⟩
      · rw [if_neg hfp] at h
        obtain ⟨r', h1, h2, h3, h4⟩ := ih h
        exact ⟨r', by rw [findRecord_cons]; exact (if_neg hfp).trans h1, h2, h3, h4⟩

theorem findRecord_append {l : List FixingFile} {p : Option FPath} {r : FixingFile}
    (x : FixingFile) (h : findRecord l p = some r) :
    findRecord (l ++ [x]) p = some r := by
  induction l with
  | nil => simp [findRecord] at h
  | cons f fs ih =>
    rw [findRecord_cons] at h
    rw [List.cons_append, findRecord_cons]
    by_cases hfp : f.filepath = p
    · rw [if_pos hfp] at h ⊢
      exact h
    · rw [if_neg hfp] at h ⊢
      exact ih h

/-- Looking up the key just stored always yields the stored value. -/
theorem alistGet_insert_self (d : RenameMap) (k v : Option FPath) :
    alistGet (alistInsert d k v) k = some v := by
  simp [alistGet, alistInsert]

/-- On a MODIFY change the rename map is untouched, so the canonical path is
read straight off the incoming map. -/
theorem modPath_modify {st : MinerState} {c : Commit} {mf : Modification}
    (h : mf.change_type = MType.MODIFY) :
    modPath st c mf = (alistGet st.renamed_files mf.new_path).getD mf.new_path := by
  simp [modPath, modRenamed, renameUpdate, h]

/-- A successful record lookup makes the membership test of line 143 true. -/
theorem findRecord_any {l : List FixingFile} {p : Option FPath} {r : FixingFile}
    (h : findRecord l p = some r) :
    l.any (fun g => g.filepath = p) = true := by
  induction l with
  | nil => simp [findRecord] at h
  | cons f fs ih =>
    rw [findRecord_cons] at h
    rw [List.any_cons]
    by_cases hfp : f.filepath = p
    · simp [hfp]
    · rw [if_neg hfp] at h
      simp [ih h]

/-- Exact shape of the update of line 146: the existing record for `p` gets
precisely `s` unioned into its inducing set, nothing else changes. -/
theorem findRecord_updateFirst_self {l : List FixingFile} {p : Option FPath}
    {r : FixingFile} (s : Finset Hash) (h : findRecord l p = some r) :
    findRecord (updateFirst l p s) p = some ⟨r.filepath, r.bics ∪ s, r.fix_commit⟩ := by
  induction l with
  | nil => simp [findRecord] at h
  | cons f fs ih =>
    rw [findRecord_cons] at h
    unfold updateFirst
    by_cases hfp : f.filepath = p
    · rw [if_pos hfp] at h
      injection h with h
      subst h
      rw [if_pos hfp, findRecord_cons, if_pos hfp]
    · rw [if_neg hfp] at h
      rw [if_neg hfp, findRecord_cons, if_neg hfp]
      exact ih h

/-- `updateFirst` cannot create a record under a key that had none. -/
theorem findRecord_updateFirst_none {l : List FixingFile} {p q : Option FPath}
    (s : Finset Hash) (h : findRecord l p = none) :
    findRecord (updateFirst l q s) p = none := by
  induction l with
  | nil => rfl
  | cons f fs ih =>
    rw [findRecord_cons] at h
    by_cases hfp : f.filepath = p
    · rw [if_pos hfp] at h
      exact Option.noConfusion h
    · rw [if_neg hfp] at h
      unfold updateFirst
      by_cases hfq : f.filepath = q
      · rw [if_pos hfq, findRecord_cons, if_neg hfp]
        exact h
      · rw [if_neg hfq, findRecord_cons, if_neg hfp]
        exact ih h

/-- A record found after appending one element, where none was found before,
is that element. -/
theorem findRecord_append_none {l : List FixingFile} {p : Option FPath}
    {x rc : FixingFile} (h0 : findRecord l p = none)
    (h : findRecord (l ++ [x]) p = some rc) : rc = x := by
  induction l with
  | nil =>
    rw [List.nil_append, findRecord_cons] at h
    by_cases hxp : x.filepath = p
    · rw [if_pos hxp] at h
      exact (Option.some.inj h).symm
    · rw [if_neg hxp] at h
      simp [findRecord] at h
  | cons f fs ih =>
    rw [findRecord_cons] at h0
    by_cases hfp : f.filepath = p
    · rw [if_pos hfp] at h0
      exact Option.noConfusion h0
    · rw [if_neg hfp] at h0
      rw [List.cons_append, findRecord_cons, if_neg hfp] at h
      exact ih h0 h

/-- The collision branch of lines 143-146, in full generality: a qualifying
change of a fixing commit whose resolved path already has a record succeeds,
unions the returned inducing set into that same record — keeping its
filepath and `fix_commit` — and opens no separate record. -/
theorem processMod_union_step {blame : Blame} {c : Commit} {st : MinerState}
    {mf : Modification} {bics : Finset Hash} {r : FixingFile}
    (h1 : c.hash ∈ st.fixing_commits)
    (h2 : mf.change_type = MType.MODIFY ∨ mf.change_type = MType.RENAME)
    (h3 : blame c mf ≠ [])
    (h4 : blameGet (blame c mf) mf.new_path = some bics)
    (h5 : findRecord st.fixing_files (modPath st c mf) = some r) :
    processMod blame c st mf =
      .ok ⟨st.fixing_commits, modRenamed st c mf,
        updateFirst st.fixing_files (modPath st c mf) bics⟩ ∧
    findRecord (updateFirst st.fixing_files (modPath st c mf) bics)
      (modPath st c mf) = some ⟨r.filepath, r.bics ∪ bics, r.fix_commit⟩ := by
  have hA : ¬(mf.change_type ≠ MType.MODIFY ∧ mf.change_type ≠ MType.RENAME) := by
    rcases h2 with h | h <;> simp [h]
  refine ⟨?_, findRecord_updateFirst_self bics h5⟩
  simp [processMod, hA, h1, h3, h4, findRecord_any h5]

theorem recordMono_refl (l : List FixingFile) : RecordMono l l :=
  fun _ r h => ⟨r, h, rfl, rfl, Finset.Subset.refl _⟩

theorem recordMono_trans {a b c : List FixingFile} (h1 : RecordMono a b)
    (h2 : RecordMono b c) : RecordMono a c := by
  intro p r h
  obtain ⟨r1, k1, k2, k3, k4⟩ := h1 p r h
  obtain ⟨r2, m1, m2, m3, m4⟩ := h2 p r1 k1
  exact ⟨r2, m1, by rw [m2, k2], by rw [m3, k3], Finset.Subset.trans k4 m4⟩

theorem stateRecordMono_trans : ∀ a b c : MinerState,
    RecordMono a.fixing_files b.fixing_files →
    RecordMono b.fixing_files c.fixing_files →
    RecordMono a.fixing_files c.fixing_files :=
  fun _ _ _ h1 h2 => recordMono_trans h1 h2

/-- A successful modification-loop step only refines the record list:
existing records keep their filepath and fix_commit and can only gain
inducing commits. -/
theorem processMod_recordMono {blame : Blame} {c : Commit} {st st' : MinerState}
    {mf : Modification} (h : processMod blame c st mf = .ok st') :
    RecordMono st.fixing_files st'.fixing_files := by
  unfold processMod at h
  split at h
  · cases h; exact recordMono_refl _
  split at h
  · cases h; exact recordMono_refl _
  split at h
  · cases h; exact recordMono_refl _
  split at h
  · exact Except.noConfusion h
  split at h
  · cases h
    exact fun p r hr => findRecord_updateFirst _ _ hr
  · cases h
    exact fun p r hr => ⟨r, findRecord_append _ hr, rfl, rfl, Finset.Subset.refl _⟩

theorem processCommit_recordMono {ansible : AnsiblePred} {blame : Blame}
    {st st' : MinerState} {c : Commit}
    (h : processCommit ansible blame st c = .ok st') :
    RecordMono st.fixing_files st'.fixing_files := by
  unfold processCommit at h
  split at h
  · cases h
    by_cases hm : c.hash ∈ st.fixing_commits <;> simp [hm] <;> exact recordMono_refl _
  · exact foldlM_rel (R := fun a b => RecordMono a.fixing_files b.fixing_files)
      (fun _ => recordMono_refl _) stateRecordMono_trans
      (fun _ _ _ hok => processMod_recordMono hok) c.modifications st st' h

theorem runWalk_recordMono {ansible : AnsiblePred} {blame : Blame}
    {cs : List Commit} {st st' : MinerState}
    (h : runWalk ansible blame cs st = .ok st') :
    RecordMono st.fixing_files st'.fixing_files :=
  foldlM_rel (R := fun a b => RecordMono a.fixing_files b.fixing_files)
    (fun _ => recordMono_refl _) stateRecordMono_trans
    (fun _ _ _ hok => processCommit_recordMono hok) cs st st' h

/-- A modification-loop step that brings a record for `p` into existence ran
the append branch of line 148: the new record carries the visiting commit's
hash as `fix_commit`, the commit was in the fixing set, and the change was a
qualifying one with a non-empty blame result whose key was present. -/
theorem processMod_creates {blame : Blame} {c : Commit} {st st' : MinerState}
    {mf : Modification} {p : Option FPath} {rc : FixingFile}
    (h : processMod blame c st mf = .ok st')
    (h0 : findRecord st.fixing_files p = none)
    (hr : findRecord st'.fixing_files p = some rc) :
    rc.fix_commit = c.hash ∧ c.hash ∈ st.fixing_commits ∧
      (mf.change_type = MType.MODIFY ∨ mf.change_type = MType.RENAME) ∧
      blame c mf ≠ [] ∧ blameGet (blame c mf) mf.new_path ≠ none := by
  by_cases hA : mf.change_type ≠ MType.MODIFY ∧ mf.change_type ≠ MType.RENAME
  · have hpe : processMod blame c st mf = .ok st := by simp [processMod, hA]
    have hst := Except.ok.inj (hpe.symm.trans h)
    rw [← hst] at hr
    exact absurd (h0.symm.trans hr) (by simp)
  by_cases hB : c.hash ∉ st.fixing_commits
  · have hpe : processMod blame c st mf =
        .ok ⟨st.fixing_commits, modRenamed st c mf, st.fixing_files⟩ := by
      simp [processMod, hA, hB]
    have hst := Except.ok.inj (hpe.symm.trans h)
    rw [← hst] at hr
    exact absurd (h0.symm.trans hr) (by simp)
  have hBin : c.hash ∈ st.fixing_commits := not_not.mp hB
  by_cases hC : blame c mf = []
  · have hpe : processMod blame c st mf =
        .ok ⟨st.fixing_commits, modRenamed st c mf, st.fixing_files⟩ := by
      simp [processMod, hA, hBin, hC]
    have hst := Except.ok.inj (hpe.symm.trans h)
    rw [← hst] at hr
    exact absurd (h0.symm.trans hr) (by simp)
  cases hbg : blameGet (blame c mf) mf.new_path with
  | none =>
    have hpe : processMod blame c st mf = .error () := by
      simp [processMod, hA, hBin, hC, hbg]
    rw [hpe] at h
    exact Except.noConfusion h
  | some bics =>
    by_cases hD : st.fixing_files.any (fun g => g.filepath = modPath st c mf) = true
    · have hpe : processMod blame c st mf =
          .ok ⟨st.fixing_commits, modRenamed st c mf,
            updateFirst st.fixing_files (modPath st c mf) bics⟩ := by
        simp [processMod, hA, hBin, hC, hbg, hD]
      have hst := Except.ok.inj (hpe.symm.trans h)
      rw [← hst] at hr
      have hnone : findRecord (updateFirst st.fixing_files (modPath st c mf) bics) p = none :=
        findRecord_updateFirst_none bics h0
      exact absurd (hnone.symm.trans hr) (by simp)
    · have hpe : processMod blame c st mf =
          .ok ⟨st.fixing_commits, modRenamed st c mf,
            st.fixing_files ++ [⟨modPath st c mf, bics, c.hash⟩]⟩ := by
        simp [processMod, hA, hBin, hC, hbg, hD]
      have hst := Except.ok.inj (hpe.symm.trans h)
      rw [← hst] at hr
      have hrc : rc = ⟨modPath st c mf, bics, c.hash⟩ := findRecord_append_none h0 hr
      refine ⟨by rw [hrc], hBin, ?_, hC, by simp⟩
      rcases not_and_or.mp hA with h' | h'
      · exact Or.inl (not_not.mp h')
      · exact Or.inr (not_not.mp h')

/-- Lifting `processMod_creates` through the modification loop: the first
record ever stored under `p` during a commit's loop carries that commit's
hash, and some change of the list supplied the qualifying evidence. -/
theorem foldlM_processMod_creates {blame : Blame} {c : Commit} :
    ∀ (mods : List Modification) (st st' : MinerState) (p : Option FPath) (rc : FixingFile),
      mods.foldlM (processMod blame c) st = .ok st' →
      findRecord st.fixing_files p = none →
      findRecord st'.fixing_files p = some rc →
      rc.fix_commit = c.hash ∧ c.hash ∈ st.fixing_commits ∧
        ∃ mf ∈ mods, (mf.change_type = MType.MODIFY ∨ mf.change_type = MType.RENAME) ∧
          blame c mf ≠ [] ∧ blameGet (blame c mf) mf.new_path ≠ none
  | [], st, st', p, rc, h, h0, hr => by
    rw [List.foldlM_nil] at h
    cases h
    exact absurd (h0.symm.trans hr) (by simp)
  | mf :: mods, st, st', p, rc, h, h0, hr => by
    rw [List.foldlM_cons] at h
    cases hstep : processMod blame c st mf with
    | error e =>
      rw [hstep] at h
      exact absurd ((error_bind _) ▸ h) (by simp)
    | ok s1 =>
      rw [hstep, ok_bind] at h
      cases hmid : findRecord s1.fixing_files p with
      | none =>
        obtain ⟨k1, k2, mf', hmem, k3⟩ :=
          foldlM_processMod_creates mods s1 st' p rc h hmid hr
        exact ⟨k1, (processMod_fc hstep) ▸ k2, mf', List.mem_cons_of_mem _ hmem, k3⟩
      | some rc1 =>
        obtain ⟨k1, k2, k3, k4, k5⟩ := processMod_creates hstep h0 hmid
        obtain ⟨r', m1, m2, _, _⟩ :=
          foldlM_rel (R := fun a b => RecordMono a.fixing_files b.fixing_files)
            (fun _ => recordMono_refl _) stateRecordMono_trans
            (fun _ _ _ hok => processMod_recordMono hok) mods s1 st' h p rc1 hmid
        have hrr : rc = r' := Option.some.inj (hr.symm.trans m1)
        refine ⟨?_, k2, mf, List.mem_cons_self _ _, k3, k4, k5⟩
        rw [hrr, m2, k1]

/-- A commit-walk step that brings a record for `p` into existence did so in
its modification loop: skipped commits store nothing. -/
theorem processCommit_creates {ansible : AnsiblePred} {blame : Blame}
    {st st' : MinerState} {c : Commit} {p : Option FPath} {rc : FixingFile}
    (h : processCommit ansible blame st c = .ok st')
    (h0 : findRecord st.fixing_files p = none)
    (hr : findRecord st'.fixing_files p = some rc) :
    rc.fix_commit = c.hash ∧ c.hash ∈ st.fixing_commits ∧
      ∃ mf ∈ c.modifications,
        (mf.change_type = MType.MODIFY ∨ mf.change_type = MType.RENAME) ∧
        blame c mf ≠ [] ∧ blameGet (blame c mf) mf.new_path ≠ none := by
  unfold processCommit at h
  split at h
  · cases h
    by_cases hm : c.hash ∈ st.fixing_commits
    · rw [if_pos hm] at hr
      exact absurd (h0.symm.trans hr) (by simp)
    · rw [if_neg hm] at hr
      exact absurd (h0.symm.trans hr) (by simp)
  · exact foldlM_processMod_creates c.modifications st st' p rc h h0 hr

/-- Recency of record creation: a record present at the end of a walk but
absent at its start was created by the first visited commit `c` that
contributed for its path — through the walk prefix `cs₁` before `c` (the
strictly more recent commits) no record for the path existed — with `c`
still in the fixing set at its visit, the record's `fix_commit` equal to
`c`'s hash, and a qualifying change with a non-empty blame result carrying
its key among `c`'s modifications. -/
theorem runWalk_creates {ansible : AnsiblePred} {blame : Blame} :
    ∀ (cs : List Commit) (st st' : MinerState) (p : Option FPath) (r : FixingFile),
      runWalk ansible blame cs st = .ok st' →
      findRecord st.fixing_files p = none →
      findRecord st'.fixing_files p = some r →
      ∃ cs₁ c cs₂ stPre, cs = cs₁ ++ c :: cs₂ ∧
        runWalk ansible blame cs₁ st = .ok stPre ∧
        findRecord stPre.fixing_files p = none ∧
        c.hash ∈ stPre.fixing_commits ∧ r.fix_commit = c.hash ∧
        ∃ mf ∈ c.modifications,
          (mf.change_type = MType.MODIFY ∨ mf.change_type = MType.RENAME) ∧
          blame c mf ≠ [] ∧ blameGet (blame c mf) mf.new_path ≠ none
  | [], st, st', p, r, h, h0, hr => by
    unfold runWalk at h
    rw [List.foldlM_nil] at h
    cases h
    exact absurd (h0.symm.trans hr) (by simp)
  | c0 :: cs, st, st', p, r, h, h0, hr => by
    unfold runWalk at h
    rw [List.foldlM_cons] at h
    cases hstep : processCommit ansible blame st c0 with
    | error e =>
      rw [hstep] at h
      exact absurd ((error_bind _) ▸ h) (by simp)
    | ok s1 =>
      rw [hstep, ok_bind] at h
      cases hmid : findRecord s1.fixing_files p with
      | none =>
        obtain ⟨cs₁, c, cs₂, stPre, he, hpre, k3, k4, k5, k6⟩ :=
          runWalk_creates cs s1 st' p r h hmid hr
        refine ⟨c0 :: cs₁, c, cs₂, stPre, by rw [he]; rfl, ?_, k3, k4, k5, k6⟩
        unfold runWalk
        rw [List.foldlM_cons, hstep, ok_bind]
        exact hpre
      | some rc1 =>
        obtain ⟨k1, k2, k3⟩ := processCommit_creates hstep h0 hmid
        obtain ⟨r', m1, m2, _, _⟩ :=
          runWalk_recordMono (show runWalk ansible blame cs s1 = .ok st' from h) p rc1 hmid
        have hrr : r = r' := Option.some.inj (hr.symm.trans m1)
        refine ⟨[], c0, cs, st, rfl, ?_, h0, k2, ?_, k3⟩
        · unfold runWalk
          rw [List.foldlM_nil]
          rfl
        · rw [hrr, m2, k1]

/-!  Claim C4: merge keeps the most recent fix. -/

/-- Claim C4 counterexample.  The claim's parenthetical "every record's
fix_commit is the most recent fixing commit that touched its canonical
path" fails when the most recent fixing commit touching the path gets an
empty blame result: here both `f2` and the newer `f1` are fixing commits
touching `p` (second conjunct: both survive in branch order, `f1` last),
yet the only record for `p` carries `fix_commit = "f2"`. -/
theorem fix_commit_recency_cex :
    get_fixing_files exCommits4 exAnsible exBlame4 {"f1", "f2"} =
      .ok [⟨some "p", {"b"}, "f2"⟩] ∧
    sortedFixing exCommits4 {"f1", "f2"} = ["f2", "f1"] ∧
    anyAnsible exAnsible ⟨"f1", [⟨some "p", some "p", MType.MODIFY⟩]⟩ = true ∧
    ∀ r ∈ [(⟨some "p", {"b"}, "f2"⟩ : FixingFile)], r.fix_commit ≠ "f1" := by
  refine ⟨by decide, by decide, by decide, by decide⟩

/-- Claim C4 (corrected).  First conjunct: when a record already exists for
a change's canonical path, the loop body unions the newly returned inducing
set into exactly that record, leaving its filepath and `fix_commit`
unchanged and opening no separate record.  Second conjunct: along any walk
continuation an existing record keeps its filepath and `fix_commit` — an
older fixing commit never overwrites it — and its inducing set only grows.
Third conjunct: every record is created by the first visited (hence most
recent) contributing commit — no record for the path existed through the
walk prefix before it, that commit was in the fixing set at its visit, had
a Modified/Renamed change with a non-empty blame result carrying its key,
and the record's `fix_commit` is its hash.  So `fix_commit` is the most
recent fixing commit that touched the canonical path with a non-empty
blame result, not necessarily the most recent one that touched it at
all. -/
theorem fix_commit_never_overwritten (ansible : AnsiblePred) (blame : Blame) :
    (∀ (c : Commit) (st : MinerState) (mf : Modification) (bics : Finset Hash)
       (r : FixingFile),
       c.hash ∈ st.fixing_commits →
       (mf.change_type = MType.MODIFY ∨ mf.change_type = MType.RENAME) →
       blame c mf ≠ [] →
       blameGet (blame c mf) mf.new_path = some bics →
       findRecord st.fixing_files (modPath st c mf) = some r →
       processMod blame c st mf =
         .ok ⟨st.fixing_commits, modRenamed st c mf,
           updateFirst st.fixing_files (modPath st c mf) bics⟩ ∧
       findRecord (updateFirst st.fixing_files (modPath st c mf) bics)
         (modPath st c mf) = some ⟨r.filepath, r.bics ∪ bics, r.fix_commit⟩) ∧
    (∀ (cs : List Commit) (st st' : MinerState) (p : Option FPath) (r : FixingFile),
       runWalk ansible blame cs st = .ok st' →
       findRecord st.fixing_files p = some r →
       ∃ r', findRecord st'.fixing_files p = some r' ∧ r'.fix_commit = r.fix_commit ∧
         r'.filepath = r.filepath ∧ r.bics ⊆ r'.bics) ∧
    (∀ (cs : List Commit) (st st' : MinerState) (p : Option FPath) (r : FixingFile),
       runWalk ansible blame cs st = .ok st' →
       findRecord st.fixing_files p = none →
       findRecord st'.fixing_files p = some r →
       ∃ cs₁ c cs₂ stPre, cs = cs₁ ++ c :: cs₂ ∧
         runWalk ansible blame cs₁ st = .ok stPre ∧
         findRecord stPre.fixing_files p = none ∧
         c.hash ∈ stPre.fixing_commits ∧ r.fix_commit = c.hash ∧
         ∃ mf ∈ c.modifications,
           (mf.change_type = MType.MODIFY ∨ mf.change_type = MType.RENAME) ∧
           blame c mf ≠ [] ∧ blameGet (blame c mf) mf.new_path ≠ none) :=
  ⟨fun _ _ _ _ _ h1 h2 h3 h4 h5 => processMod_union_step h1 h2 h3 h4 h5,
   fun _ _ _ p r h hr => runWalk_recordMono h p r hr,
   fun cs st st' p r h h0 hr => runWalk_creates cs st st' p r h h0 hr⟩

/-- Witness for the corrected C4 under `exBlame6`: visiting the older fixing
commit `f2` from `exSt4` unions `f2`'s evidence `{"f1"}` into `f1`'s record
for `p` keeping `fix_commit = "f1"` (first and second conjuncts), and on the
full walk `[exF1, exF2]` from the empty record list the record for `p` is
created at `f1`, the most recent contributing fixing commit (third
conjunct). -/
theorem fix_commit_never_overwritten_witness :
    (processMod exBlame6 exF2 exSt4 exModP =
        .ok ⟨exSt4.fixing_commits, modRenamed exSt4 exF2 exModP,
          updateFirst exSt4.fixing_files (modPath exSt4 exF2 exModP) {"f1"}⟩ ∧
      findRecord (updateFirst exSt4.fixing_files (modPath exSt4 exF2 exModP) {"f1"})
          (modPath exSt4 exF2 exModP) =
        some ⟨FixingFile.filepath ⟨some "p", {"h0"}, "f1"⟩,
          FixingFile.bics ⟨some "p", {"h0"}, "f1"⟩ ∪ {"f1"},
          FixingFile.fix_commit ⟨some "p", {"h0"}, "f1"⟩⟩) ∧
    (∃ r', findRecord exSt4'.fixing_files (some "p") = some r' ∧
      r'.fix_commit = FixingFile.fix_commit ⟨some "p", {"h0"}, "f1"⟩ ∧
      r'.filepath = FixingFile.filepath ⟨some "p", {"h0"}, "f1"⟩ ∧
      FixingFile.bics ⟨some "p", {"h0"}, "f1"⟩ ⊆ r'.bics) ∧
    (∃ cs₁ c cs₂ stPre, [exF1, exF2] = cs₁ ++ c :: cs₂ ∧
      runWalk exAnsible exBlame6 cs₁ exSt40 = .ok stPre ∧
      findRecord stPre.fixing_files (some "p") = none ∧
      c.hash ∈ stPre.fixing_commits ∧
      FixingFile.fix_commit ⟨some "p", {"h0", "f1"}, "f1"⟩ = c.hash ∧
      ∃ mf ∈ c.modifications,
        (mf.change_type = MType.MODIFY ∨ mf.change_type = MType.RENAME) ∧
        exBlame6 c mf ≠ [] ∧ blameGet (exBlame6 c mf) mf.new_path ≠ none) :=
  ⟨(fix_commit_never_overwritten exAnsible exBlame6).1 exF2 exSt4 exModP {"f1"}
      ⟨some "p", {"h0"}, "f1"⟩ (by decide) (Or.inl rfl) (by decide) (by decide) (by decide),
   (fix_commit_never_overwritten exAnsible exBlame6).2.1 [exF2] exSt4 exSt4'
      (some "p") ⟨some "p", {"h0"}, "f1"⟩ (by decide) (by decide),
   (fix_commit_never_overwritten exAnsible exBlame6).2.2 [exF1, exF2] exSt40 exSt4'
      (some "p") ⟨some "p", {"h0", "f1"}, "f1"⟩ (by decide) (by decide) (by decide)⟩

/-!  Claim C1: canonical-path merging across renames. -/

/-- Nodup of the filepath keys is preserved by one modification-loop step. -/
theorem processMod_keysNodup {blame : Blame} {c : Commit} {st st' : MinerState}
    {mf : Modification} (h : processMod blame c st mf = .ok st')
    (hk : (st.fixing_files.map FixingFile.filepath).Nodup) :
    (st'.fixing_files.map FixingFile.filepath).Nodup := by
  unfold processMod at h
  split at h
  · cases h; exact hk
  split at h
  · cases h; exact hk
  split at h
  · cases h; exact hk
  split at h
  · exact Except.noConfusion h
  split at h
  · cases h
    show ((updateFirst st.fixing_files _ _).map FixingFile.filepath).Nodup
    rw [updateFirst_map_filepath]
    exact hk
  · rename_i hany
    cases h
    show ((st.fixing_files ++ [_]).map FixingFile.filepath).Nodup
    rw [List.map_append]
    rw [List.nodup_append]
    refine ⟨hk, List.nodup_singleton _, ?_⟩
    intro a ha hb
    simp only [List.map_cons, List.map_nil, List.mem_singleton] at hb
    rw [List.mem_map] at ha
    obtain ⟨g, hg, hga⟩ := ha
    rw [List.any_eq_true] at hany
    exact hany ⟨g, hg, by simp [hga, hb]⟩

theorem processCommit_keysNodup {ansible : AnsiblePred} {blame : Blame}
    {st st' : MinerState} {c : Commit}
    (h : processCommit ansible blame st c = .ok st')
    (hk : (st.fixing_files.map FixingFile.filepath).Nodup) :
    (st'.fixing_files.map FixingFile.filepath).Nodup := by
  unfold processCommit at h
  split at h
  · cases h
    by_cases hm : c.hash ∈ st.fixing_commits <;> simp [hm] <;> exact hk
  · exact foldlM_inv (P := fun s => (s.fixing_files.map FixingFile.filepath).Nodup)
      (fun _ _ _ hok hp => processMod_keysNodup hok hp) c.modifications st st' h hk

/-- Claim C1 counterexample.  In `exCommits1` the non-fixing commit `ca`
renames `x` to `y`, the later fixing commit `c5` touches `y` and the older
fixing commit `c3` touches `x`; the run produces two separate records, one
per raw path, and no single record holds both pieces of inducing evidence —
the rename is not tracked because `ca` is not in the fixing-commit set. -/
theorem rename_merge_cex :
    get_fixing_files exCommits1 exAnsible exBlame1 {"c3", "c5"} =
      .ok [⟨some "y", {"b2"}, "c5"⟩, ⟨some "x", {"b1"}, "c3"⟩] ∧
    ¬ ∃ r ∈ [(⟨some "y", {"b2"}, "c5"⟩ : FixingFile), ⟨some "x", {"b1"}, "c3"⟩],
        "b1" ∈ r.bics ∧ "b2" ∈ r.bics := by
  refine ⟨by decide, by decide⟩

/-- Claim C1 (corrected).  First conjunct: at most one fixing-file record
exists per record filepath key in any successful run.  Second conjunct, the
rename tracking of lines 122-128 under both provisos: on a RENAME at commit
`A`, if `A`'s `new_path` already has a canonical mapping the updated map
sends `A`'s `old_path` to that same canonical path, and otherwise, when `A`
is in the fixing-commit set at its visit, to `A`'s `new_path`.  Third
conjunct: once the rename map sends a change's `new_path` to the canonical
path `P` of an existing record — F1's record, under the uniqueness of the
first conjunct — a later-visited fixing commit F2 modifying that file
unions its inducing evidence into that very record, keeping its filepath
and `fix_commit`, instead of opening a separate one. -/
theorem rename_merge_amended (ansible : AnsiblePred) (blame : Blame) :
    (∀ (commits : List Commit) (fc : Finset Hash) (l : List FixingFile),
       get_fixing_files commits ansible blame fc = .ok l →
       (l.map FixingFile.filepath).Nodup) ∧
    (∀ (st : MinerState) (A : Commit) (mfA : Modification),
       mfA.change_type = MType.RENAME →
       (∀ canon, alistGet st.renamed_files mfA.new_path = some canon →
          alistGet (modRenamed st A mfA) mfA.old_path = some canon) ∧
       (alistGet st.renamed_files mfA.new_path = none →
          A.hash ∈ st.fixing_commits →
          alistGet (modRenamed st A mfA) mfA.old_path = some mfA.new_path)) ∧
    (∀ (st : MinerState) (F2 : Commit) (mf2 : Modification) (P : Option FPath)
       (bics : Finset Hash) (r : FixingFile),
       mf2.change_type = MType.MODIFY →
       F2.hash ∈ st.fixing_commits →
       alistGet st.renamed_files mf2.new_path = some P →
       blame F2 mf2 ≠ [] →
       blameGet (blame F2 mf2) mf2.new_path = some bics →
       findRecord st.fixing_files P = some r →
       processMod blame F2 st mf2 =
         .ok ⟨st.fixing_commits, modRenamed st F2 mf2,
           updateFirst st.fixing_files P bics⟩ ∧
       findRecord (updateFirst st.fixing_files P bics) P =
         some ⟨r.filepath, r.bics ∪ bics, r.fix_commit⟩) := by
  refine ⟨?_, ?_, ?_⟩
  · intro commits fc l h
    unfold get_fixing_files at h
    cases hrun : get_fixing_files_run commits ansible blame fc with
    | error e => rw [hrun] at h; exact Except.noConfusion h
    | ok st1 =>
      rw [hrun] at h
      cases h
      unfold get_fixing_files_run at hrun
      split at hrun
      · cases hrun
        exact List.nodup_nil
      · exact foldlM_inv (P := fun s => (s.fixing_files.map FixingFile.filepath).Nodup)
          (fun _ _ _ hok hp => processCommit_keysNodup hok hp) _ _ _ hrun List.nodup_nil
  · intro st A mfA hR
    constructor
    · intro canon hc
      have he : modRenamed st A mfA = alistInsert st.renamed_files mfA.old_path canon := by
        simp [modRenamed, renameUpdate, hR, hc]
      rw [he]
      exact alistGet_insert_self _ _ _
    · intro hn hA
      have he : modRenamed st A mfA =
          alistInsert st.renamed_files mfA.old_path mfA.new_path := by
        simp [modRenamed, renameUpdate, hR, hn, hA]
      rw [he]
      exact alistGet_insert_self _ _ _
  · intro st F2 mf2 P bics r hM hin hmap hbne hbg hfind
    have hmp : modPath st F2 mf2 = P := by
      rw [modPath_modify hM, hmap]
      rfl
    have hu := processMod_union_step hin (Or.inl hM) hbne hbg
      (show findRecord st.fixing_files (modPath st F2 mf2) = some r by
        rw [hmp]; exact hfind)
    rw [hmp] at hu
    exact hu

/-- Witness for the corrected C1: the uniqueness conjunct at the run of
`exCommits1`; the rename tracking at a rename `x -> y` whose `new_path` is
already mapped to `z`, and at one where the renaming commit `ca` is fixing;
and the merge conjunct at the older fixing commit `c3` modifying `x` while
the map sends `x` to `y`, the key of `c5`'s existing record. -/
theorem rename_merge_amended_witness :
    (([⟨some "y", {"b2"}, "c5"⟩, ⟨some "x", {"b1"}, "c3"⟩] : List FixingFile).map
        FixingFile.filepath).Nodup ∧
    alistGet (modRenamed ⟨∅, [(some "y", some "z")], []⟩ ⟨"ca", []⟩
        ⟨some "x", some "y", MType.RENAME⟩) (some "x") = some (some "z") ∧
    alistGet (modRenamed ⟨{"ca"}, [], []⟩ ⟨"ca", []⟩
        ⟨some "x", some "y", MType.RENAME⟩) (some "x") = some (some "y") ∧
    (processMod exBlame1 ⟨"c3", [⟨some "x", some "x", MType.MODIFY⟩]⟩
        ⟨{"c3"}, [(some "x", some "y")], [⟨some "y", {"b2"}, "c5"⟩]⟩
        ⟨some "x", some "x", MType.MODIFY⟩ =
      .ok ⟨{"c3"},
        modRenamed ⟨{"c3"}, [(some "x", some "y")], [⟨some "y", {"b2"}, "c5"⟩]⟩
          ⟨"c3", [⟨some "x", some "x", MType.MODIFY⟩]⟩ ⟨some "x", some "x", MType.MODIFY⟩,
        updateFirst [⟨some "y", {"b2"}, "c5"⟩] (some "y") {"b1"}⟩ ∧
      findRecord (updateFirst [⟨some "y", {"b2"}, "c5"⟩] (some "y") {"b1"}) (some "y") =
        some ⟨FixingFile.filepath ⟨some "y", {"b2"}, "c5"⟩,
          FixingFile.bics ⟨some "y", {"b2"}, "c5"⟩ ∪ {"b1"},
          FixingFile.fix_commit ⟨some "y", {"b2"}, "c5"⟩⟩) :=
  ⟨(rename_merge_amended exAnsible exBlame1).1 exCommits1 {"c3", "c5"}
      [⟨some "y", {"b2"}, "c5"⟩, ⟨some "x", {"b1"}, "c3"⟩] (by decide),
   ((rename_merge_amended exAnsible exBlame1).2.1 ⟨∅, [(some "y", some "z")], []⟩
      ⟨"ca", []⟩ ⟨some "x", some "y", MType.RENAME⟩ rfl).1 (some "z") (by decide),
   ((rename_merge_amended exAnsible exBlame1).2.1 ⟨{"ca"}, [], []⟩
      ⟨"ca", []⟩ ⟨some "x", some "y", MType.RENAME⟩ rfl).2 rfl (by decide),
   (rename_merge_amended exAnsible exBlame1).2.2
      ⟨{"c3"}, [(some "x", some "y")], [⟨some "y", {"b2"}, "c5"⟩]⟩
      ⟨"c3", [⟨some "x", some "x", MType.MODIFY⟩]⟩ ⟨some "x", some "x", MType.MODIFY⟩
      (some "y") {"b1"} ⟨some "y", {"b2"}, "c5"⟩
      rfl (by decide) (by decide) (by decide) (by decide) (by decide)⟩

/-!  Claim C9: implicit partiality at the blame lookup. -/

/-- The loop body raises when a non-empty blame result lacks the queried
change's `new_path` key: the `KeyError` branch. -/
theorem processMod_keyerror {blame : Blame} {c : Commit} {st : MinerState}
    {mf : Modification} (h1 : c.hash ∈ st.fixing_commits)
    (h2 : mf.change_type = MType.MODIFY ∨ mf.change_type = MType.RENAME)
    (h3 : blame c mf ≠ []) (h4 : blameGet (blame c mf) mf.new_path = none) :
    processMod blame c st mf = .error () := by
  have hA : ¬(mf.change_type ≠ MType.MODIFY ∧ mf.change_type ≠ MType.RENAME) := by
    rcases h2 with h | h <;> simp [h]
  simp [processMod, hA, h1, h3, h4]

theorem foldlM_error_propagates {α σ : Type} (f : σ → α → Except Unit σ)
    (l1 : List α) (a : α) (l2 : List α) (s s1 : σ)
    (h1 : l1.foldlM f s = .ok s1) (h2 : f s1 a = .error ()) :
    (l1 ++ a :: l2).foldlM f s = .error () := by
  rw [List.foldlM_append, h1, ok_bind, List.foldlM_cons, h2, error_bind]

/-- Under the key-presence precondition the loop body never raises. -/
theorem processMod_total {blame : Blame}
    (hb : ∀ c mf, blame c mf ≠ [] → blameGet (blame c mf) mf.new_path ≠ none) :
    ∀ (c : Commit) (st : MinerState) (mf : Modification),
      ∃ st', processMod blame c st mf = .ok st' := by
  intro c st mf
  by_cases hA : mf.change_type ≠ MType.MODIFY ∧ mf.change_type ≠ MType.RENAME
  · exact ⟨st, by simp [processMod, hA]⟩
  by_cases hB : c.hash ∉ st.fixing_commits
  · exact ⟨{ st with renamed_files := modRenamed st c mf }, by simp [processMod, hA, hB]⟩
  by_cases hC : blame c mf = []
  · exact ⟨{ st with renamed_files := modRenamed st c mf }, by simp [processMod, hA, hB, hC]⟩
  obtain ⟨bics, hbg⟩ : ∃ b, blameGet (blame c mf) mf.new_path = some b := by
    cases hg : blameGet (blame c mf) mf.new_path with
    | none => exact absurd hg (hb c mf hC)
    | some b => exact ⟨b, rfl⟩
  by_cases hD : st.fixing_files.any (fun g => g.filepath = modPath st c mf)
  · exact ⟨⟨st.fixing_commits, modRenamed st c mf,
      updateFirst st.fixing_files (modPath st c mf) bics⟩,
      by simp [processMod, hA, hB, hC, hbg, hD]⟩
  · exact ⟨⟨st.fixing_commits, modRenamed st c mf,
      st.fixing_files ++ [⟨modPath st c mf, bics, c.hash⟩]⟩,
      by simp [processMod, hA, hB, hC, hbg, hD]⟩

theorem processCommit_total {ansible : AnsiblePred} {blame : Blame}
    (hb : ∀ c mf, blame c mf ≠ [] → blameGet (blame c mf) mf.new_path ≠ none) :
    ∀ (st : MinerState) (c : Commit),
      ∃ st', processCommit ansible blame st c = .ok st' := by
  intro st c
  by_cases ha : anyAnsible ansible c = false
  · by_cases hm : c.hash ∈ st.fixing_commits
    · exact ⟨⟨st.fixing_commits.erase c.hash, st.renamed_files, st.fixing_files⟩,
        by simp [processCommit, ha, hm]⟩
    · exact ⟨st, by simp [processCommit, ha, hm]⟩
  · rw [show processCommit ansible blame st c =
        c.modifications.foldlM (processMod blame c) st by simp [processCommit, ha]]
    exact foldlM_total (fun s mf => processMod_total hb c s mf) c.modifications st

/-- Claim C9 (confirmed).  The resolver reads the blame result at `new_path`
without a guard: for a Modified or Renamed change of a fixing commit whose
non-empty blame result lacks that key, the loop body raises (first
conjunct), the error aborts the rest of the modification loop (second) and
the rest of the walk (third); and under the precondition that every
non-empty blame result contains the queried change's `new_path`, the error
branch is unreachable and `get_fixing_files` always returns a value
(fourth). -/
theorem blame_key_partiality (ansible : AnsiblePred) (blame : Blame) :
    (∀ (c : Commit) (st : MinerState) (mf : Modification),
      c.hash ∈ st.fixing_commits →
      (mf.change_type = MType.MODIFY ∨ mf.change_type = MType.RENAME) →
      blame c mf ≠ [] → blameGet (blame c mf) mf.new_path = none →
      processMod blame c st mf = .error ()) ∧
    (∀ (c : Commit) (mods1 mods2 : List Modification) (mf : Modification)
        (st st1 : MinerState),
      mods1.foldlM (processMod blame c) st = .ok st1 →
      processMod blame c st1 mf = .error () →
      (mods1 ++ mf :: mods2).foldlM (processMod blame c) st = .error ()) ∧
    (∀ (cs1 cs2 : List Commit) (c : Commit) (st st1 : MinerState),
      runWalk ansible blame cs1 st = .ok st1 →
      processCommit ansible blame st1 c = .error () →
      runWalk ansible blame (cs1 ++ c :: cs2) st = .error ()) ∧
    (∀ (commits : List Commit) (fc : Finset Hash),
      (∀ c mf, blame c mf ≠ [] → blameGet (blame c mf) mf.new_path ≠ none) →
      ∃ l, get_fixing_files commits ansible blame fc = .ok l) := by
  refine ⟨fun c st mf h1 h2 h3 h4 => processMod_keyerror h1 h2 h3 h4,
          fun c mods1 mods2 mf st st1 h1 h2 =>
            foldlM_error_propagates (processMod blame c) mods1 mf mods2 st st1 h1 h2,
          fun cs1 cs2 c st st1 h1 h2 =>
            foldlM_error_propagates (processCommit ansible blame) cs1 c cs2 st st1 h1 h2,
          fun commits fc hb => ?_⟩
  unfold get_fixing_files get_fixing_files_run
  split
  · exact ⟨[], rfl⟩
  · obtain ⟨st', hst'⟩ :=
      foldlM_total (fun s c => processCommit_total hb s c) (minerWalkList commits fc)
        (⟨fc, [], []⟩ : MinerState)
    exact ⟨st'.fixing_files, by rw [show runWalk ansible blame (minerWalkList commits fc)
      ⟨fc, [], []⟩ = _ from hst']; rfl⟩

/-- Witness for C9: the loop body raises on `exBlame9`'s mis-keyed result,
a one-commit walk aborts with that error, and a blame primitive that is
always empty satisfies the precondition, so the run returns a value. -/
theorem blame_key_partiality_witness :
    processMod exBlame9 ⟨"f1", [⟨some "p", some "p", MType.MODIFY⟩]⟩
      ⟨{"f1"}, [], []⟩ ⟨some "p", some "p", MType.MODIFY⟩ = .error () ∧
    runWalk exAnsible exBlame9 [⟨"f1", [⟨some "p", some "p", MType.MODIFY⟩]⟩]
      ⟨{"f1"}, [], []⟩ = .error () ∧
    ∃ l, get_fixing_files exCommits1 exAnsible (fun _ _ => []) {"c3"} = .ok l :=
  ⟨(blame_key_partiality exAnsible exBlame9).1 _ _ _ (by decide) (Or.inl rfl)
      (by decide) (by decide),
   (blame_key_partiality exAnsible exBlame9).2.2.1 [] [] _ _ ⟨{"f1"}, [], []⟩ rfl
      (by decide),
   (blame_key_partiality exAnsible (fun _ _ => [])).2.2.2 exCommits1 {"c3"}
      (fun _ _ h => absurd rfl h)⟩

/-!  Claim C6: `fix_commit` is never among its own `inducing_commits`. -/

/-- Claim C6 counterexample.  Under the claim's precondition alone — the
blame primitive excludes only the queried commit itself (second and third
conjuncts check it on the data actually returned) — the older fixing commit
`f2` may blame the newer fixing commit `f1`, and the union puts `f1` into
the record whose `fix_commit` is `f1`. -/
theorem self_exclusion_insufficient_cex :
    get_fixing_files exCommits4 exAnsible exBlame6 {"f1", "f2"} =
      .ok [⟨some "p", {"h0", "f1"}, "f1"⟩] ∧
    ("f1" : Hash) ∉ ({"h0"} : Finset Hash) ∧
    ("f2" : Hash) ∉ ({"f1"} : Finset Hash) ∧
    ∃ r ∈ [(⟨some "p", {"h0", "f1"}, "f1"⟩ : FixingFile)], r.fix_commit ∈ r.bics := by
  refine ⟨by decide, by decide, by decide, by decide⟩

/-- Membership in an updated record list: the record either was already
there, or is an old record with the new inducing set unioned in. -/
theorem updateFirst_mem {l : List FixingFile} {p : Option FPath}
    {s : Finset Hash} {r' : FixingFile} (h : r' ∈ updateFirst l p s) :
    ∃ r ∈ l, r'.fix_commit = r.fix_commit ∧
      (r'.bics = r.bics ∨ r'.bics = r.bics ∪ s) := by
  induction l with
  | nil => simp [updateFirst] at h
  | cons f fs ih =>
    unfold updateFirst at h
    split at h
    · rcases List.mem_cons.mp h with h | h
      · subst h
        exact ⟨f, List.mem_cons_self _ _, rfl, Or.inr rfl⟩
      · exact ⟨r', List.mem_cons_of_mem _ h, rfl, Or.inl rfl⟩
    · rcases List.mem_cons.mp h with h | h
      · subst h
        exact ⟨r', List.mem_cons_self _ _, rfl, Or.inl rfl⟩
      · obtain ⟨r, hr, h1, h2⟩ := ih h
        exact ⟨r, List.mem_cons_of_mem _ hr, h1, h2⟩

/-- The set stored by the record branch comes from an entry of the blame
dict. -/
theorem blameGet_mem {d : List (FPath × Finset Hash)} {k : Option FPath}
    {s : Finset Hash} (h : blameGet d k = some s) : ∃ p, (p, s) ∈ d := by
  cases k with
  | none => exact absurd h (by simp [blameGet])
  | some p =>
    have h' : (d.find? (fun e => e.1 = p)).map (fun e => e.2) = some s := h
    cases hf : d.find? (fun e => e.1 = p) with
    | none => rw [hf] at h'; exact absurd h' (by simp)
    | some e =>
      rw [hf] at h'
      simp at h'
      exact ⟨e.1, by rw [show (e.1, s) = e from Prod.ext rfl h'.symm]
                     exact List.mem_of_find?_eq_some hf⟩

/-- One modification-loop step at commit `c` preserves the strict ordering
invariant: all stored inducing commits are `lt`-older than their record's
fixing commit, and every record's fixing commit is `c` itself or `lt`-newer
than `c`. -/
theorem processMod_bicsBound {lt : Hash → Hash → Prop} {blame : Blame}
    {c : Commit} {st st' : MinerState} {mf : Modification}
    (htrans : Transitive lt)
    (hb : ∀ mf1 p s, (p, s) ∈ blame c mf1 → ∀ b ∈ s, lt b c.hash)
    (h : processMod blame c st mf = .ok st')
    (h1 : BicsBound lt st.fixing_files)
    (h2 : ∀ r ∈ st.fixing_files, r.fix_commit = c.hash ∨ lt c.hash r.fix_commit) :
    BicsBound lt st'.fixing_files ∧
      ∀ r ∈ st'.fixing_files, r.fix_commit = c.hash ∨ lt c.hash r.fix_commit := by
  unfold processMod at h
  split at h
  · cases h; exact ⟨h1, h2⟩
  split at h
  · cases h; exact ⟨h1, h2⟩
  split at h
  · cases h; exact ⟨h1, h2⟩
  split at h
  · exact Except.noConfusion h
  rename_i bics hbg
  have hlt : ∀ b ∈ bics, lt b c.hash := by
    obtain ⟨p, hp⟩ := blameGet_mem hbg
    exact hb mf p bics hp
  split at h
  · cases h
    constructor
    · intro r' hr' b hb'
      obtain ⟨r, hr, hfix, hbics⟩ := updateFirst_mem hr'
      rw [hfix]
      rcases hbics with he | he
      · exact h1 r hr b (he ▸ hb')
      · rw [he] at hb'
        rcases Finset.mem_union.mp hb' with hm | hm
        · exact h1 r hr b hm
        · rcases h2 r hr with hf | hf
          · rw [hf]; exact hlt b hm
          · exact htrans (hlt b hm) hf
    · intro r' hr'
      obtain ⟨r, hr, hfix, _⟩ := updateFirst_mem hr'
      rw [hfix]
      exact h2 r hr
  · cases h
    constructor
    · intro r' hr' b hb'
      rcases List.mem_append.mp hr' with hm | hm
      · exact h1 r' hm b hb'
      · rw [List.mem_singleton] at hm
        subst hm
        exact hlt b hb'
    · intro r' hr'
      rcases List.mem_append.mp hr' with hm | hm
      · exact h2 r' hm
      · rw [List.mem_singleton] at hm
        subst hm
        exact Or.inl rfl

theorem processCommit_bicsBound {lt : Hash → Hash → Prop} {ansible : AnsiblePred}
    {blame : Blame} {c : Commit} {st st' : MinerState}
    (htrans : Transitive lt)
    (hb : ∀ mf p s, (p, s) ∈ blame c mf → ∀ b ∈ s, lt b c.hash)
    (h : processCommit ansible blame st c = .ok st')
    (h1 : BicsBound lt st.fixing_files)
    (h2 : ∀ r ∈ st.fixing_files, r.fix_commit = c.hash ∨ lt c.hash r.fix_commit) :
    BicsBound lt st'.fixing_files ∧
      ∀ r ∈ st'.fixing_files, r.fix_commit = c.hash ∨ lt c.hash r.fix_commit := by
  unfold processCommit at h
  split at h
  · cases h
    by_cases hm : c.hash ∈ st.fixing_commits <;> simp [hm] <;> exact ⟨h1, h2⟩
  · exact foldlM_inv
      (P := fun s => BicsBound lt s.fixing_files ∧
        ∀ r ∈ s.fixing_files, r.fix_commit = c.hash ∨ lt c.hash r.fix_commit)
      (fun s mf s' hok hp => processMod_bicsBound htrans hb hok hp.1 hp.2)
      c.modifications st st' h ⟨h1, h2⟩

/-- Along a walk that visits commits in strictly decreasing `lt`-order, the
ordering invariant on records is maintained. -/
theorem runWalk_bicsBound {lt : Hash → Hash → Prop} {ansible : AnsiblePred}
    {blame : Blame} (htrans : Transitive lt)
    (hblame : ∀ c mf p s, (p, s) ∈ blame c mf → ∀ b ∈ s, lt b c.hash) :
    ∀ (cs : List Commit) (st st' : MinerState),
      cs.Pairwise (fun a b => lt b.hash a.hash) →
      runWalk ansible blame cs st = .ok st' →
      BicsBound lt st.fixing_files →
      (∀ r ∈ st.fixing_files, ∀ c ∈ cs, lt c.hash r.fix_commit ∨ c.hash = r.fix_commit) →
      BicsBound lt st'.fixing_files
  | [], st, st', _, h, hbb, _ => by
    rw [runWalk, List.foldlM_nil] at h
    cases h
    exact hbb
  | c :: cs, st, st', hpw, h, hbb, hanch => by
    rw [runWalk, List.foldlM_cons] at h
    cases hc : processCommit ansible blame st c with
    | error e =>
      rw [hc] at h
      exact absurd ((error_bind _) ▸ h) (by simp)
    | ok st1 =>
      rw [hc, ok_bind] at h
      have hpair := List.pairwise_cons.mp hpw
      obtain ⟨hbb1, hanch1⟩ := processCommit_bicsBound htrans (hblame c) hc hbb
        (fun r hr => by
          rcases hanch r hr c (List.mem_cons_self _ _) with h' | h'
          · exact Or.inr h'
          · exact Or.inl h'.symm)
      exact runWalk_bicsBound htrans hblame cs st1 st' hpair.2 h hbb1
        (fun r hr c' hc' => by
          rcases hanch1 r hr with h' | h'
          · exact Or.inl (h' ▸ hpair.1 c' hc')
          · exact Or.inl (htrans (hpair.1 c' hc') h'))

/-- Claim C6 (corrected).  Strengthen the precondition from "the blame
result excludes the queried commit itself" to "the blame result contains
only commits strictly older than the queried one" (in any strict order `lt`
along which the walk is antitone — in the real miner, ancestry order):
then every record of a successful run has a duplicate-free inducing set
that never contains its own `fix_commit`. -/
theorem fix_commit_not_inducing_amended (commits : List Commit)
    (ansible : AnsiblePred) (blame : Blame) (fc : Finset Hash)
    (lt : Hash → Hash → Prop) (l : List FixingFile)
    (htrans : Transitive lt) (hirr : Irreflexive lt)
    (hblame : ∀ c mf p s, (p, s) ∈ blame c mf → ∀ b ∈ s, lt b c.hash)
    (hwalk : (minerWalkList commits fc).Pairwise (fun a b => lt b.hash a.hash))
    (h : get_fixing_files commits ansible blame fc = .ok l) :
    ∀ r ∈ l, r.bics.val.Nodup ∧ r.fix_commit ∉ r.bics := by
  have hbb : BicsBound lt l := by
    unfold get_fixing_files at h
    cases hrun : get_fixing_files_run commits ansible blame fc with
    | error e => rw [hrun] at h; exact Except.noConfusion h
    | ok st1 =>
      rw [hrun] at h
      cases h
      unfold get_fixing_files_run at hrun
      split at hrun
      · cases hrun
        intro r hr
        simp at hr
      · exact runWalk_bicsBound htrans hblame _ _ _ hwalk hrun
          (fun r hr => by simp at hr) (fun r hr => by simp at hr)
  intro r hr
  refine ⟨r.bics.nodup, fun hmem => ?_⟩
  exact hirr r.fix_commit (hbb r hr r.fix_commit hmem)

/-- Witness for the corrected C6 on the one-commit history `exCommits6`. -/
theorem fix_commit_not_inducing_amended_witness :
    (FixingFile.bics ⟨some "p", {"h0"}, "f1"⟩).val.Nodup ∧
      FixingFile.fix_commit ⟨some "p", {"h0"}, "f1"⟩ ∉
        FixingFile.bics ⟨some "p", {"h0"}, "f1"⟩ :=
  fix_commit_not_inducing_amended exCommits6 exAnsible exBlameC6 {"f1"}
    (fun a b => a = "h0" ∧ b = "f1") [⟨some "p", {"h0"}, "f1"⟩]
    (by
      intro x y z h1 h2
      exact absurd (h1.2.symm.trans h2.1) (by decide))
    (by
      intro x h1
      exact absurd (h1.1.symm.trans h1.2) (by decide))
    (by
      intro c mf p s hmem b hbs
      by_cases hc : c.hash = "f1"
      · simp [exBlameC6, hc] at hmem
        rw [hmem.2] at hbs
        simp at hbs
        exact ⟨hbs, hc⟩
      · simp [exBlameC6, hc] at hmem)
    (by
      rw [show minerWalkList exCommits6 {"f1"} =
        [⟨"f1", [⟨some "p", some "p", MType.MODIFY⟩]⟩] by decide]
      exact List.pairwise_singleton _ _)
    (by decide) ⟨some "p", {"h0"}, "f1"⟩ (List.mem_cons_self _ _)

/-!  Claim C7: idempotence of resolution.  The development below compares a
second run, started from the pruned fixing-commit set the first run leaves
behind, with the first run. -/

theorem stateFcEq_trans : ∀ a b c : MinerState,
    b.fixing_commits = a.fixing_commits → c.fixing_commits = b.fixing_commits →
    c.fixing_commits = a.fixing_commits :=
  fun _ _ _ h1 h2 => h2.trans h1

/-- One walk step either keeps the fixing set or erases exactly the visited
commit's hash, the latter only on a commit with no target-type change. -/
theorem processCommit_fc {ansible : AnsiblePred} {blame : Blame}
    {st st' : MinerState} {c : Commit}
    (h : processCommit ansible blame st c = .ok st') :
    st'.fixing_commits = st.fixing_commits ∨
      (st'.fixing_commits = st.fixing_commits.erase c.hash ∧
        anyAnsible ansible c = false) := by
  unfold processCommit at h
  split at h
  · rename_i hna
    cases h
    by_cases hm : c.hash ∈ st.fixing_commits
    · right
      refine ⟨?_, hna⟩
      simp [hm]
    · left
      simp [hm]
  · left
    exact foldlM_rel (R := fun a b => b.fixing_commits = a.fixing_commits)
      (fun _ => rfl) stateFcEq_trans
      (fun _ _ _ hok => processMod_fc hok) _ _ _ h

/-- The walk only shrinks the fixing set, and every hash it removes is the
hash of a visited commit with no target-type change. -/
theorem runWalk_fc_shrinks {ansible : AnsiblePred} {blame : Blame} :
    ∀ (cs : List Commit) (st st' : MinerState),
      runWalk ansible blame cs st = .ok st' →
      st'.fixing_commits ⊆ st.fixing_commits ∧
      ∀ h, h ∈ st.fixing_commits → h ∉ st'.fixing_commits →
        ∃ c ∈ cs, c.hash = h ∧ anyAnsible ansible c = false
  | [], st, st', h => by
    rw [runWalk, List.foldlM_nil] at h
    cases h
    exact ⟨Finset.Subset.refl _, fun h hin hout => absurd hin hout⟩
  | c :: cs, st, st', h => by
    rw [runWalk, List.foldlM_cons] at h
    cases hc : processCommit ansible blame st c with
    | error e =>
      rw [hc] at h
      exact absurd ((error_bind _) ▸ h) (by simp)
    | ok st1 =>
      rw [hc, ok_bind] at h
      obtain ⟨ih1, ih2⟩ := runWalk_fc_shrinks cs st1 st' h
      rcases processCommit_fc hc with h1 | ⟨h1, hna⟩
      · rw [h1] at ih1
        refine ⟨ih1, fun hh hin hout => ?_⟩
        obtain ⟨c', hc', he, hn⟩ := ih2 hh (h1 ▸ hin) hout
        exact ⟨c', List.mem_cons_of_mem _ hc', he, hn⟩
      · constructor
        · exact fun x hx => Finset.erase_subset _ _ (h1 ▸ ih1 hx)
        · intro hh hin hout
          by_cases hmid : hh ∈ st1.fixing_commits
          · obtain ⟨c', hc', he, hn⟩ := ih2 hh hmid hout
            exact ⟨c', List.mem_cons_of_mem _ hc', he, hn⟩
          · rw [h1, Finset.mem_erase] at hmid
            push_neg at hmid
            have he : hh = c.hash := by
              by_contra hne
              exact (hmid hne) hin
            exact ⟨c, List.mem_cons_self _ _, he.symm, hna⟩

/-- On a walk visiting pairwise distinct hashes, a visited commit with a
target-type change keeps its membership status in the fixing set. -/
theorem runWalk_ansible_stable {ansible : AnsiblePred} {blame : Blame}
    {cs : List Commit} {st st' : MinerState}
    (hnd : (cs.map Commit.hash).Nodup)
    (h : runWalk ansible blame cs st = .ok st')
    {c : Commit} (hc : c ∈ cs) (ha : anyAnsible ansible c = true) :
    c.hash ∈ st.fixing_commits ↔ c.hash ∈ st'.fixing_commits := by
  obtain ⟨hsub, hdiff⟩ := runWalk_fc_shrinks cs st st' h
  constructor
  · intro hin
    by_contra hout
    obtain ⟨c', hc', hhash, hna⟩ := hdiff c.hash hin hout
    have hcc : c' = c := List.inj_on_of_nodup_map hnd hc' hc hhash
    rw [hcc, ha] at hna
    exact Bool.noConfusion hna
  · exact fun hin => hsub hin

/-- The inclusive take-until slice is a sublist. -/
theorem takeTill_sublist (h : Hash) : ∀ l : List Commit, List.Sublist (takeTill h l) l
  | [] => List.Sublist.refl _
  | c :: cs => by
    unfold takeTill
    split
    · exact (List.nil_sublist cs).cons₂ c
    · exact (takeTill_sublist h cs).cons₂ c

theorem walkList_sublist (commits : List Commit) (first last : Hash) :
    List.Sublist (walkList commits first last).reverse commits := by
  rw [walkList, List.reverse_reverse]
  exact (takeTill_sublist last _).trans (List.dropWhile_sublist _)

theorem walkList_mem {commits : List Commit} {first last : Hash} {c : Commit}
    (hc : c ∈ walkList commits first last) : c ∈ commits :=
  (walkList_sublist commits first last).subset (List.mem_reverse.mpr hc)

theorem walkList_nodup {commits : List Commit} (first last : Hash)
    (hnd : (commits.map Commit.hash).Nodup) :
    ((walkList commits first last).map Commit.hash).Nodup := by
  rw [show (walkList commits first last).map Commit.hash =
    (((walkList commits first last).reverse).map Commit.hash).reverse by
      rw [List.map_reverse, List.reverse_reverse]]
  rw [List.nodup_reverse]
  exact List.Nodup.sublist ((walkList_sublist commits first last).map Commit.hash) hnd

/-- The ordering step in terms of a commit-level filter. -/
theorem sortedFixing_eq (commits : List Commit) (fc : Finset Hash) :
    sortedFixing commits fc =
      (commits.filter (fun c => decide (c.hash ∈ fc))).map Commit.hash := by
  rw [sortedFixing, List.filter_map]
  rfl

/-- A commit with no target-type change is skipped: the step only erases
its hash (a no-op erase when it was not a fixing commit). -/
theorem processCommit_skip {ansible : AnsiblePred} {blame : Blame}
    {st : MinerState} {c : Commit} (hna : anyAnsible ansible c = false) :
    processCommit ansible blame st c =
      .ok ⟨st.fixing_commits.erase c.hash, st.renamed_files, st.fixing_files⟩ := by
  unfold processCommit
  rw [if_pos hna]
  by_cases hm : c.hash ∈ st.fixing_commits
  · simp [hm]
  · simp [hm, Finset.erase_eq_of_not_mem hm]

/-- The loop body depends on the fixing set only through the visited
commit's own membership. -/
theorem modRenamed_congr {stA stB : MinerState} {c : Commit} {mf : Modification}
    (hr : stB.renamed_files = stA.renamed_files)
    (hm : c.hash ∈ stA.fixing_commits ↔ c.hash ∈ stB.fixing_commits) :
    modRenamed stB c mf = modRenamed stA c mf := by
  unfold modRenamed renameUpdate
  rw [hr]
  by_cases hin : c.hash ∈ stA.fixing_commits
  · simp [hin, hm.mp hin]
  · have hnb : c.hash ∉ stB.fixing_commits := fun hb => hin (hm.mpr hb)
    simp [hin, hnb]

theorem modPath_congr {stA stB : MinerState} {c : Commit} {mf : Modification}
    (hr : stB.renamed_files = stA.renamed_files)
    (hm : c.hash ∈ stA.fixing_commits ↔ c.hash ∈ stB.fixing_commits) :
    modPath stB c mf = modPath stA c mf := by
  unfold modPath
  rw [modRenamed_congr hr hm]

/-- Congruence of one modification-loop step for two states that agree on
the rename map, the record list and the visited commit's membership. -/
theorem processMod_congr {blame : Blame} {c : Commit} {stA stB : MinerState}
    {mf : Modification}
    (hr : stB.renamed_files = stA.renamed_files)
    (hf : stB.fixing_files = stA.fixing_files)
    (hm : c.hash ∈ stA.fixing_commits ↔ c.hash ∈ stB.fixing_commits) :
    (processMod blame c stA mf = .error () ∧ processMod blame c stB mf = .error ()) ∨
    ∃ stA' stB', processMod blame c stA mf = .ok stA' ∧
      processMod blame c stB mf = .ok stB' ∧
      stB'.renamed_files = stA'.renamed_files ∧
      stB'.fixing_files = stA'.fixing_files ∧
      stA'.fixing_commits = stA.fixing_commits ∧
      stB'.fixing_commits = stB.fixing_commits := by
  by_cases hA : mf.change_type ≠ MType.MODIFY ∧ mf.change_type ≠ MType.RENAME
  · exact Or.inr ⟨stA, stB, by simp [processMod, hA], by simp [processMod, hA],
      hr, hf, rfl, rfl⟩
  by_cases hB : c.hash ∉ stA.fixing_commits
  · have hB' : c.hash ∉ stB.fixing_commits := fun hb => hB (hm.mpr hb)
    exact Or.inr ⟨⟨stA.fixing_commits, modRenamed stA c mf, stA.fixing_files⟩,
      ⟨stB.fixing_commits, modRenamed stB c mf, stB.fixing_files⟩,
      by simp [processMod, hA, hB], by simp [processMod, hA, hB'],
      modRenamed_congr hr hm, hf, rfl, rfl⟩
  have hBin : c.hash ∈ stA.fixing_commits := not_not.mp hB
  have hBin' : c.hash ∈ stB.fixing_commits := hm.mp hBin
  by_cases hC : blame c mf = []
  · exact Or.inr ⟨⟨stA.fixing_commits, modRenamed stA c mf, stA.fixing_files⟩,
      ⟨stB.fixing_commits, modRenamed stB c mf, stB.fixing_files⟩,
      by simp [processMod, hA, hBin, hC], by simp [processMod, hA, hBin', hC],
      modRenamed_congr hr hm, hf, rfl, rfl⟩
  have h2 : mf.change_type = MType.MODIFY ∨ mf.change_type = MType.RENAME := by
    rcases not_and_or.mp hA with h | h
    · exact Or.inl (not_not.mp h)
    · exact Or.inr (not_not.mp h)
  cases hbg : blameGet (blame c mf) mf.new_path with
  | none =>
    exact Or.inl ⟨processMod_keyerror hBin h2 hC hbg,
      processMod_keyerror hBin' h2 hC hbg⟩
  | some bics =>
    by_cases hD : stA.fixing_files.any (fun g => g.filepath = modPath stA c mf)
    · have hD' : stB.fixing_files.any
          (fun g => g.filepath = modPath stB c mf) = true := by
        rw [hf, modPath_congr hr hm]
        exact hD
      exact Or.inr ⟨⟨stA.fixing_commits, modRenamed stA c mf,
          updateFirst stA.fixing_files (modPath stA c mf) bics⟩,
        ⟨stB.fixing_commits, modRenamed stB c mf,
          updateFirst stB.fixing_files (modPath stB c mf) bics⟩,
        by simp [processMod, hA, hBin, hC, hbg, hD],
        by simp [processMod, hA, hBin', hC, hbg, hD'],
        modRenamed_congr hr hm, by rw [hf, modPath_congr hr hm], rfl, rfl⟩
    · have hD' : ¬ (stB.fixing_files.any
          (fun g => g.filepath = modPath stB c mf) = true) := by
        rw [hf, modPath_congr hr hm]
        exact hD
      exact Or.inr ⟨⟨stA.fixing_commits, modRenamed stA c mf,
          stA.fixing_files ++ [⟨modPath stA c mf, bics, c.hash⟩]⟩,
        ⟨stB.fixing_commits, modRenamed stB c mf,
          stB.fixing_files ++ [⟨modPath stB c mf, bics, c.hash⟩]⟩,
        by simp [processMod, hA, hBin, hC, hbg, hD],
        by simp [processMod, hA, hBin', hC, hbg, hD'],
        modRenamed_congr hr hm, by rw [hf, modPath_congr hr hm], rfl, rfl⟩

/-- Congruence of the whole modification loop. -/
theorem foldlM_processMod_congr {blame : Blame} {c : Commit} :
    ∀ (mods : List Modification) (stA stB stA' : MinerState),
      stB.renamed_files = stA.renamed_files →
      stB.fixing_files = stA.fixing_files →
      (c.hash ∈ stA.fixing_commits ↔ c.hash ∈ stB.fixing_commits) →
      mods.foldlM (processMod blame c) stA = .ok stA' →
      ∃ stB', mods.foldlM (processMod blame c) stB = .ok stB' ∧
        stB'.renamed_files = stA'.renamed_files ∧
        stB'.fixing_files = stA'.fixing_files ∧
        stA'.fixing_commits = stA.fixing_commits ∧
        stB'.fixing_commits = stB.fixing_commits
  | [], stA, stB, stA', hr, hf, _, h => by
    rw [List.foldlM_nil] at h
    cases h
    exact ⟨stB, by rw [List.foldlM_nil]; rfl, hr, hf, rfl, rfl⟩
  | mf :: mods, stA, stB, stA', hr, hf, hm, h => by
    rw [List.foldlM_cons] at h
    rcases @processMod_congr blame c stA stB mf hr hf hm with ⟨hEA, _⟩ | ⟨s1, s2, h1, h2, k1, k2, k3, k4⟩
    · rw [hEA] at h
      exact absurd ((error_bind _) ▸ h) (by simp)
    · rw [h1, ok_bind] at h
      have hm1 : c.hash ∈ s1.fixing_commits ↔ c.hash ∈ s2.fixing_commits := by
        rw [k3, k4]
        exact hm
      obtain ⟨stB', hB', r1, r2, r3, r4⟩ :=
        foldlM_processMod_congr mods s1 s2 stA' k1 k2 hm1 h
      exact ⟨stB', by rw [List.foldlM_cons, h2, ok_bind]; exact hB', r1, r2,
        r3.trans k3, r4.trans k4⟩

/-- Congruence of the walk: starting a walk from a smaller fixing set that
agrees with the original on every visited commit with a target-type change
yields the same rename map and the same record list. -/
theorem runWalk_congr {ansible : AnsiblePred} {blame : Blame} :
    ∀ (cs : List Commit) (stA stB stA' : MinerState),
      runWalk ansible blame cs stA = .ok stA' →
      stB.renamed_files = stA.renamed_files →
      stB.fixing_files = stA.fixing_files →
      stB.fixing_commits ⊆ stA.fixing_commits →
      (∀ c ∈ cs, anyAnsible ansible c = true →
        (c.hash ∈ stA.fixing_commits ↔ c.hash ∈ stB.fixing_commits)) →
      ∃ stB', runWalk ansible blame cs stB = .ok stB' ∧
        stB'.renamed_files = stA'.renamed_files ∧
        stB'.fixing_files = stA'.fixing_files ∧
        stB'.fixing_commits ⊆ stA'.fixing_commits
  | [], stA, stB, stA', h, hr, hf, hsub, _ => by
    rw [runWalk, List.foldlM_nil] at h
    cases h
    exact ⟨stB, by rw [runWalk, List.foldlM_nil]; rfl, hr, hf, hsub⟩
  | c :: cs, stA, stB, stA', h, hr, hf, hsub, hiff => by
    rw [runWalk, List.foldlM_cons] at h
    by_cases hna : anyAnsible ansible c = false
    · rw [processCommit_skip hna, ok_bind] at h
      have hsub1 : (⟨stB.fixing_commits.erase c.hash, stB.renamed_files,
          stB.fixing_files⟩ : MinerState).fixing_commits ⊆
          stA.fixing_commits.erase c.hash :=
        Finset.erase_subset_erase _ hsub
      have hiff1 : ∀ c' ∈ cs, anyAnsible ansible c' = true →
          (c'.hash ∈ stA.fixing_commits.erase c.hash ↔
            c'.hash ∈ stB.fixing_commits.erase c.hash) := by
        intro c' hc' ha'
        rw [Finset.mem_erase, Finset.mem_erase]
        constructor
        · rintro ⟨hne, hmem⟩
          exact ⟨hne, (hiff c' (List.mem_cons_of_mem _ hc') ha').mp hmem⟩
        · rintro ⟨hne, hmem⟩
          exact ⟨hne, (hiff c' (List.mem_cons_of_mem _ hc') ha').mpr hmem⟩
      obtain ⟨stB', h', r1, r2, r3⟩ := runWalk_congr cs
        ⟨stA.fixing_commits.erase c.hash, stA.renamed_files, stA.fixing_files⟩
        ⟨stB.fixing_commits.erase c.hash, stB.renamed_files, stB.fixing_files⟩
        stA' h hr hf hsub1 hiff1
      refine ⟨stB', ?_, r1, r2, r3⟩
      rw [runWalk, List.foldlM_cons, processCommit_skip hna, ok_bind]
      exact h'
    · have hna' : anyAnsible ansible c = true := by
        cases hb : anyAnsible ansible c
        · exact absurd hb hna
        · rfl
      rw [show processCommit ansible blame stA c =
        c.modifications.foldlM (processMod blame c) stA from by
          unfold processCommit
          rw [if_neg (by simp [hna'])]] at h
      cases hfold : c.modifications.foldlM (processMod blame c) stA with
      | error e =>
        rw [hfold] at h
        exact absurd ((error_bind _) ▸ h) (by simp)
      | ok s1 =>
        rw [hfold, ok_bind] at h
        obtain ⟨s2, h2, k1, k2, k3, k4⟩ := foldlM_processMod_congr
          c.modifications stA stB s1 hr hf
          (hiff c (List.mem_cons_self _ _) hna') hfold
        have hsub1 : s2.fixing_commits ⊆ s1.fixing_commits := by
          rw [k3, k4]
          exact hsub
        have hiff1 : ∀ c' ∈ cs, anyAnsible ansible c' = true →
            (c'.hash ∈ s1.fixing_commits ↔ c'.hash ∈ s2.fixing_commits) := by
          intro c' hc' ha'
          rw [k3, k4]
          exact hiff c' (List.mem_cons_of_mem _ hc') ha'
        obtain ⟨stB', h', r1, r2, r3⟩ := runWalk_congr cs s1 s2 stA' h k1 k2 hsub1 hiff1
        refine ⟨stB', ?_, r1, r2, r3⟩
        rw [runWalk, List.foldlM_cons]
        rw [show processCommit ansible blame stB c =
          c.modifications.foldlM (processMod blame c) stB from by
            unfold processCommit
            rw [if_neg (by simp [hna'])]]
        rw [h2, ok_bind]
        exact h'

/-- A modification loop on a commit that is not a fixing commit leaves the
fixing set and record list unchanged (and an empty rename map empty). -/
theorem foldlM_mods_not_fixing {blame : Blame} {c : Commit} :
    ∀ (mods : List Modification) (st : MinerState), c.hash ∉ st.fixing_commits →
      ∃ ρ, mods.foldlM (processMod blame c) st =
          .ok ⟨st.fixing_commits, ρ, st.fixing_files⟩ ∧
        (st.renamed_files = [] → ρ = [])
  | [], st, _ => ⟨st.renamed_files, by rw [List.foldlM_nil]; rfl, fun he => he⟩
  | mf :: mods, st, h => by
    obtain ⟨ρ1, h1, he1⟩ := @processMod_not_fixing blame c st mf h
    obtain ⟨ρ, h2, he2⟩ := foldlM_mods_not_fixing mods
      ⟨st.fixing_commits, ρ1, st.fixing_files⟩ h
    exact ⟨ρ, by rw [List.foldlM_cons, h1, ok_bind]; exact h2,
      fun he => he2 (he1 he)⟩

/-- A walk over commits that are never fixing commits (when they touch a
target-type file) cannot create records: it only prunes, and keeps an empty
rename map empty. -/
theorem runWalk_inert {ansible : AnsiblePred} {blame : Blame} :
    ∀ (cs : List Commit) (st : MinerState),
      (∀ c ∈ cs, anyAnsible ansible c = true → c.hash ∉ st.fixing_commits) →
      ∃ st', runWalk ansible blame cs st = .ok st' ∧
        st'.fixing_files = st.fixing_files ∧
        st'.fixing_commits ⊆ st.fixing_commits ∧
        (st.renamed_files = [] → st'.renamed_files = [])
  | [], st, _ => ⟨st, by rw [runWalk, List.foldlM_nil]; rfl, rfl,
      Finset.Subset.refl _, fun he => he⟩
  | c :: cs, st, hin => by
    by_cases hna : anyAnsible ansible c = false
    · obtain ⟨st', h', f1, f2, f3⟩ := runWalk_inert cs
        ⟨st.fixing_commits.erase c.hash, st.renamed_files, st.fixing_files⟩
        (fun c' hc' ha' hmem => hin c' (List.mem_cons_of_mem _ hc') ha'
          (Finset.mem_of_mem_erase hmem))
      refine ⟨st', ?_, f1, fun x hx => Finset.erase_subset _ _ (f2 hx), f3⟩
      rw [runWalk, List.foldlM_cons, processCommit_skip hna, ok_bind]
      exact h'
    · have hna' : anyAnsible ansible c = true := by
        cases hb : anyAnsible ansible c
        · exact absurd hb hna
        · rfl
      have hnotin : c.hash ∉ st.fixing_commits :=
        hin c (List.mem_cons_self _ _) hna'
      obtain ⟨ρ, hfold, heρ⟩ := foldlM_mods_not_fixing c.modifications st hnotin
      obtain ⟨st', h', f1, f2, f3⟩ := runWalk_inert cs
        ⟨st.fixing_commits, ρ, st.fixing_files⟩
        (fun c' hc' ha' => hin c' (List.mem_cons_of_mem _ hc') ha')
      refine ⟨st', ?_, f1, f2, fun he => f3 (heρ he)⟩
      rw [runWalk, List.foldlM_cons]
      rw [show processCommit ansible blame st c =
        c.modifications.foldlM (processMod blame c) st from by
          unfold processCommit
          rw [if_neg (by simp [hna'])]]
      rw [hfold, ok_bind]
      exact h'

/-!  List decomposition machinery relating the slices walked by two runs. -/

/-- In a duplicate-free list the split at a given element is unique. -/
theorem split_unique {α : Type} {a : α} :
    ∀ {u₁ : List α} {l v₁ u₂ v₂ : List α}, l.Nodup →
      l = u₁ ++ a :: v₁ → l = u₂ ++ a :: v₂ → u₁ = u₂ ∧ v₁ = v₂ := by
  intro u₁
  induction u₁ with
  | nil =>
    intro l v₁ u₂ v₂ hnd h₁ h₂
    cases u₂ with
    | nil =>
      have he := h₁.symm.trans h₂
      rw [List.nil_append, List.nil_append] at he
      injection he with _ he2
      exact ⟨rfl, he2⟩
    | cons x u₂' =>
      rw [List.nil_append] at h₁
      have he := h₁.symm.trans h₂
      rw [List.cons_append] at he
      injection he with he1 he2
      subst h₁
      exfalso
      have hmem : a ∈ v₁ := by
        rw [he2]
        exact List.mem_append_right _ (List.mem_cons_self _ _)
      exact (List.nodup_cons.mp hnd).1 hmem
  | cons x u₁' ih =>
    intro l v₁ u₂ v₂ hnd h₁ h₂
    cases u₂ with
    | nil =>
      rw [List.nil_append] at h₂
      have he := h₂.symm.trans h₁
      rw [List.cons_append] at he
      injection he with he1 he2
      subst h₂
      exfalso
      have hmem : a ∈ v₂ := by
        rw [he2]
        exact List.mem_append_right _ (List.mem_cons_self _ _)
      exact (List.nodup_cons.mp hnd).1 hmem
    | cons y u₂' =>
      rw [List.cons_append] at h₁ h₂
      have he := h₁.symm.trans h₂
      injection he with he1 he2
      have hnd' : (u₁' ++ a :: v₁).Nodup := by
        rw [h₁] at hnd
        exact (List.nodup_cons.mp hnd).2
      obtain ⟨g1, g2⟩ := ih hnd' rfl he2
      exact ⟨by rw [he1, g1], g2⟩

theorem dropWhile_append_all {α : Type} {p : α → Bool} :
    ∀ {xs : List α} (ys : List α), (∀ x ∈ xs, p x = true) →
      (xs ++ ys).dropWhile p = ys.dropWhile p
  | [], ys, _ => rfl
  | x :: xs, ys, hall => by
    rw [List.cons_append, List.dropWhile_cons, if_pos (hall x (List.mem_cons_self _ _))]
    exact dropWhile_append_all ys (fun y hy => hall y (List.mem_cons_of_mem _ hy))

theorem takeTill_eq {h : Hash} {e : Commit} :
    ∀ (u v : List Commit), (∀ x ∈ u, x.hash ≠ h) → e.hash = h →
      takeTill h (u ++ e :: v) = u ++ [e]
  | [], v, _, he => by
    rw [List.nil_append]
    simp only [takeTill]
    rw [if_pos he]
    rfl
  | x :: u, v, hu, he => by
    rw [List.cons_append]
    simp only [takeTill]
    rw [if_neg (hu x (List.mem_cons_self _ _))]
    rw [takeTill_eq u v (fun y hy => hu y (List.mem_cons_of_mem _ hy)) he]
    rfl

/-- Splitting a list at the last element its filter keeps. -/
theorem filter_last_split {q : Commit → Bool} {L : List Commit} {e : Commit}
    {init : List Commit} (h : L.filter q = init ++ [e]) :
    ∃ l₁ l₂, L = l₁ ++ e :: l₂ ∧ (∀ x ∈ l₂, q x = false) ∧ l₁.filter q = init := by
  have hrev : L.reverse.filter q = e :: init.reverse := by
    rw [List.filter_reverse, h, List.reverse_append]
    rfl
  obtain ⟨m₁, m₂, hL, hm₁, _, hf⟩ := List.filter_eq_cons_iff.mp hrev
  refine ⟨m₂.reverse, m₁.reverse, ?_, ?_, ?_⟩
  · rw [← List.reverse_reverse L, hL, List.reverse_append, List.reverse_cons,
      List.append_assoc]
    rfl
  · intro x hx
    have := hm₁ x (List.mem_reverse.mp hx)
    simpa using this
  · rw [List.filter_reverse, hf, List.reverse_reverse]

/-- The slice walked by `get_fixing_files` sits inside the commit list with
filter-free segments on both sides, and starts and ends at filter-kept
commits. -/
theorem slice_split (L : List Commit) (q : Commit → Bool)
    (hnd : (L.map Commit.hash).Nodup) (hne : L.filter q ≠ []) :
    ∃ X mid Z d,
      L = X ++ (d :: mid) ++ Z ∧
      takeTill (((L.filter q).map Commit.hash).getLastD "")
        (dropTill (((L.filter q).map Commit.hash).headD "") L) = d :: mid ∧
      q d = true ∧
      (mid = [] ∨ ∃ mid₀ e, mid = mid₀ ++ [e] ∧ q e = true) ∧
      (∀ c ∈ X, q c = false) ∧ (∀ c ∈ Z, q c = false) := by
  have hinj : ∀ x ∈ L, ∀ y ∈ L, x.hash = y.hash → x = y :=
    fun x hx y hy => List.inj_on_of_nodup_map hnd hx hy
  have hLnd : L.Nodup := List.Nodup.of_map _ hnd
  obtain ⟨d, t, hft⟩ := List.exists_cons_of_ne_nil hne
  obtain ⟨X, Y, hL, hX, hqd, hfY⟩ := List.filter_eq_cons_iff.mp hft
  have hXf : ∀ x ∈ X, q x = false := fun x hx => by simpa using hX x hx
  have hdL : d ∈ L := by
    rw [hL]
    exact List.mem_append_right _ (List.mem_cons_self _ _)
  have hhead : ((L.filter q).map Commit.hash).headD "" = d.hash := by
    rw [hft]
    rfl
  have hdrop : dropTill ((((L.filter q)).map Commit.hash).headD "") L = d :: Y := by
    rw [hhead, hL, dropTill, dropWhile_append_all (d :: Y) ?hall]
    case hall =>
      intro x hx
      have hxL : x ∈ L := by
        rw [hL]
        exact List.mem_append_left _ hx
      by_cases hxe : x.hash = d.hash
      · exact absurd (hinj x hxL d hdL hxe ▸ hqd) (by simp [hXf x hx])
      · simp [hxe]
    · rw [List.dropWhile_cons, if_neg (by simp)]
  cases t with
  | nil =>
    have hYf : ∀ y ∈ Y, q y = false := by
      intro y hy
      have := List.filter_eq_nil_iff.mp hfY y hy
      simpa using this
    refine ⟨X, [], Y, d, by simpa using hL, ?_, hqd, Or.inl rfl, hXf, hYf⟩
    rw [hdrop, hft]
    rw [show (([d] : List Commit).map Commit.hash).getLastD "" = d.hash from rfl]
    simp [takeTill]
  | cons t₀ t₁ =>
    have htne : (t₀ :: t₁ : List Commit) ≠ [] := List.cons_ne_nil _ _
    obtain ⟨Y₁, Y₂, hY, hY₂, hfY₁⟩ :=
      @filter_last_split q Y ((t₀ :: t₁).getLast htne) ((t₀ :: t₁).dropLast)
        (by rw [hfY, List.dropLast_concat_getLast htne])
    have heY : (t₀ :: t₁).getLast htne ∈ Y := by
      rw [hY]
      exact List.mem_append_right _ (List.mem_cons_self _ _)
    have heL : (t₀ :: t₁).getLast htne ∈ L := by
      rw [hL]
      exact List.mem_append_right _ (List.mem_cons_of_mem _ heY)
    have hqe : q ((t₀ :: t₁).getLast htne) = true := by
      have hmem : (t₀ :: t₁).getLast htne ∈ L.filter q := by
        rw [hft]
        exact List.mem_cons_of_mem _ (List.getLast_mem htne)
      exact (List.mem_filter.mp hmem).2
    have hde : d ≠ (t₀ :: t₁).getLast htne := by
      intro he
      rw [hL] at hLnd
      have hnd2 := (List.nodup_append.mp hLnd).2.1
      exact (List.nodup_cons.mp hnd2).1 (by rw [he]; exact heY)
    have hlast : ((L.filter q).map Commit.hash).getLastD "" =
        ((t₀ :: t₁).getLast htne).hash := by
      rw [hft]
      rw [show ((d :: t₀ :: t₁ : List Commit).map Commit.hash) =
        Commit.hash d :: ((t₀ :: t₁).map Commit.hash) from rfl]
      rw [List.getLastD_cons]
      rw [show ((t₀ :: t₁ : List Commit).map Commit.hash) =
        ((t₀ :: t₁).dropLast.map Commit.hash) ++
          [((t₀ :: t₁).getLast htne).hash] from ?_]
      · rw [List.getLastD_concat]
      · calc (t₀ :: t₁ : List Commit).map Commit.hash
            = ((t₀ :: t₁ : List Commit).dropLast ++
                [(t₀ :: t₁).getLast htne]).map Commit.hash := by
              rw [List.dropLast_concat_getLast htne]
          _ = ((t₀ :: t₁ : List Commit).dropLast.map Commit.hash) ++
                [((t₀ :: t₁).getLast htne).hash] := by
              rw [List.map_append]
              rfl
    have hYnd : Y.Nodup := by
      rw [hL] at hLnd
      exact (List.nodup_cons.mp (List.nodup_append.mp hLnd).2.1).2
    have htake : takeTill (((L.filter q).map Commit.hash).getLastD "")
        (dropTill (((L.filter q).map Commit.hash).headD "") L) =
        d :: (Y₁ ++ [(t₀ :: t₁).getLast htne]) := by
      rw [hdrop, hlast, hY]
      rw [show (d :: (Y₁ ++ (t₀ :: t₁).getLast htne :: Y₂) : List Commit) =
        (d :: Y₁) ++ (t₀ :: t₁).getLast htne :: Y₂ from by simp]
      rw [takeTill_eq (d :: Y₁) Y₂ ?hu rfl]
      · simp
      case hu =>
        intro x hx
        rcases List.mem_cons.mp hx with hx | hx
        · subst hx
          intro hh
          exact hde (hinj x hdL _ heL hh)
        · intro hh
          have hxY : x ∈ Y := by
            rw [hY]
            exact List.mem_append_left _ hx
          have hxL : x ∈ L := by
            rw [hL]
            exact List.mem_append_right _ (List.mem_cons_of_mem _ hxY)
          have hxe := hinj x hxL _ heL hh
          rw [hY] at hYnd
          have hdisj := (List.nodup_append.mp hYnd).2.2
          exact hdisj hx (by rw [hxe]; exact List.mem_cons_self _ _)
    exact ⟨X, Y₁ ++ [(t₀ :: t₁).getLast htne], Y₂, d, by
        rw [hL, hY]
        simp, htake, hqd,
      Or.inr ⟨Y₁, (t₀ :: t₁).getLast htne, rfl, hqe⟩, hXf, hY₂⟩

/-- The slice of a smaller filter sits inside the slice of a larger one,
with filter-free remainders on both sides. -/
theorem slice_nest {L Xp S0 Zp Xq Zq : List Commit} {d1 : Commit}
    {mid : List Commit} {q : Commit → Bool}
    (hLnd : L.Nodup)
    (hp : L = Xp ++ S0 ++ Zp)
    (hq : L = Xq ++ (d1 :: mid) ++ Zq)
    (hXp : ∀ c ∈ Xp, q c = false) (hZp : ∀ c ∈ Zp, q c = false)
    (hXq : ∀ c ∈ Xq, q c = false) (hZq : ∀ c ∈ Zq, q c = false)
    (hqd : q d1 = true)
    (hmid : mid = [] ∨ ∃ mid₀ e, mid = mid₀ ++ [e] ∧ q e = true) :
    ∃ B A, S0 = B ++ (d1 :: mid) ++ A ∧
      (∀ c ∈ B, q c = false) ∧ (∀ c ∈ A, q c = false) := by
  have hd1L : d1 ∈ L := by
    rw [hq]
    exact List.mem_append_left _ (List.mem_append_right _ (List.mem_cons_self _ _))
  have hd1S0 : d1 ∈ S0 := by
    have hd1L' := hd1L
    rw [hp] at hd1L'
    rcases List.mem_append.mp hd1L' with h | h
    · rcases List.mem_append.mp h with h | h
      · exact absurd hqd (by simp [hXp d1 h])
      · exact h
    · exact absurd hqd (by simp [hZp d1 h])
  obtain ⟨preD, postD, hS0⟩ := List.append_of_mem hd1S0
  have hway1 : L = Xq ++ d1 :: (mid ++ Zq) := by
    rw [hq]
    simp
  have hway2 : L = (Xp ++ preD) ++ d1 :: (postD ++ Zp) := by
    rw [hp, hS0]
    simp
  obtain ⟨hu, hv⟩ := split_unique hLnd hway1 hway2
  have hpreD : ∀ c ∈ preD, q c = false :=
    fun c hc => hXq c (by rw [hu]; exact List.mem_append_right _ hc)
  rcases hmid with hm | ⟨mid₀, e, hm, hqe⟩
  · subst hm
    rw [List.nil_append] at hv
    refine ⟨preD, postD, by rw [hS0]; simp, hpreD, ?_⟩
    intro c hc
    exact hZq c (by rw [hv]; exact List.mem_append_left _ hc)
  · have heL : e ∈ L := by
      rw [hq, hm]
      simp
    have heS0 : e ∈ S0 := by
      have heL' := heL
      rw [hp] at heL'
      rcases List.mem_append.mp heL' with h | h
      · rcases List.mem_append.mp h with h | h
        · exact absurd hqe (by simp [hXp e h])
        · exact h
      · exact absurd hqe (by simp [hZp e h])
    have hed1 : e ≠ d1 := by
      intro he
      have hsub : List.Sublist (d1 :: mid) L := by
        rw [hq]
        exact (List.sublist_append_right _ _).trans (List.sublist_append_left _ _)
      have hndm : (d1 :: mid).Nodup := List.Nodup.sublist hsub hLnd
      have hem : e ∈ mid := by
        rw [hm]
        exact List.mem_append_right _ (List.mem_cons_self _ _)
      rw [he] at hem
      exact (List.nodup_cons.mp hndm).1 hem
    have hepreD : e ∉ preD := fun hc => absurd hqe (by simp [hpreD e hc])
    have hepostD : e ∈ postD := by
      rw [hS0] at heS0
      rcases List.mem_append.mp heS0 with h | h
      · exact absurd h hepreD
      · rcases List.mem_cons.mp h with h | h
        · exact absurd h hed1
        · exact h
    obtain ⟨pA, pB, hpost⟩ := List.append_of_mem hepostD
    have hWnd : (mid ++ Zq).Nodup := by
      have hsub : List.Sublist (mid ++ Zq) L := by
        rw [hway1]
        exact (List.sublist_cons_self _ _).trans (List.sublist_append_right _ _)
      exact List.Nodup.sublist hsub hLnd
    have hw1 : mid ++ Zq = mid₀ ++ e :: Zq := by
      rw [hm]
      simp
    have hw2 : mid ++ Zq = pA ++ e :: (pB ++ Zp) := by
      rw [hv, hpost]
      simp
    obtain ⟨hu2, hv2⟩ := split_unique hWnd hw1 hw2
    refine ⟨preD, pB, ?_, hpreD, ?_⟩
    · rw [hS0, hpost, hm, ← hu2]
      simp
    · intro c hc
      exact hZq c (by rw [hv2]; exact List.mem_append_left _ hc)

/-- Claim C7 (confirmed).  Rerunning the resolver over the same immutable
commit history, starting from the pruned fixing-commit set the first run
left behind, succeeds and produces exactly the same fixing-file records
(here proved as list equality, stronger than the claim's set equality).
The hypothesis asks for pairwise-distinct commit hashes, which git
guarantees. -/
theorem resolver_idempotent (commits : List Commit) (ansible : AnsiblePred)
    (blame : Blame) (fc : Finset Hash) (st1 : MinerState)
    (hnd : (commits.map Commit.hash).Nodup)
    (h1 : get_fixing_files_run commits ansible blame fc = .ok st1) :
    ∃ st2, get_fixing_files_run commits ansible blame st1.fixing_commits = .ok st2 ∧
      st2.fixing_files = st1.fixing_files := by
  by_cases hs0 : (sortedFixing commits fc).isEmpty
  · rw [get_fixing_files_run, if_pos hs0] at h1
    have hst : (⟨fc, [], []⟩ : MinerState) = st1 := Except.ok.inj h1
    refine ⟨st1, ?_, rfl⟩
    rw [show st1.fixing_commits = fc from by rw [← hst]]
    rw [get_fixing_files_run, if_pos hs0, hst]
  · rw [get_fixing_files_run, if_neg hs0] at h1
    have hcs0nd : ((minerWalkList commits fc).map Commit.hash).Nodup :=
      walkList_nodup _ _ hnd
    have hmem0 : ∀ c ∈ minerWalkList commits fc, c ∈ commits :=
      fun _ hc => walkList_mem hc
    have hstab : ∀ c ∈ minerWalkList commits fc, anyAnsible ansible c = true →
        (c.hash ∈ fc ↔ c.hash ∈ st1.fixing_commits) :=
      fun c hc ha => runWalk_ansible_stable hcs0nd h1 hc ha
    have hsub1 : st1.fixing_commits ⊆ fc := (runWalk_fc_shrinks _ _ _ h1).1
    by_cases hs1 : (sortedFixing commits st1.fixing_commits).isEmpty
    · have hs1' : sortedFixing commits st1.fixing_commits = [] :=
        List.isEmpty_iff.mp hs1
      have hinert : ∀ c ∈ minerWalkList commits fc, anyAnsible ansible c = true →
          c.hash ∉ (⟨fc, [], []⟩ : MinerState).fixing_commits := by
        intro c hc ha hin
        have hin1 : c.hash ∈ st1.fixing_commits := (hstab c hc ha).mp hin
        have hmemsf : c.hash ∈ sortedFixing commits st1.fixing_commits := by
          rw [sortedFixing, List.mem_filter]
          exact ⟨List.mem_map_of_mem _ (hmem0 c hc), by simp [hin1]⟩
        rw [hs1'] at hmemsf
        exact absurd hmemsf (List.not_mem_nil _)
      obtain ⟨st', h', hf', _, _⟩ :=
        runWalk_inert (minerWalkList commits fc) ⟨fc, [], []⟩ hinert
      have heq : st' = st1 := Except.ok.inj (h'.symm.trans h1)
      refine ⟨⟨st1.fixing_commits, [], []⟩, ?_, ?_⟩
      · rw [get_fixing_files_run, if_pos hs1]
      · show ([] : List FixingFile) = st1.fixing_files
        rw [← heq]
        exact hf'.symm
    · have hfp : commits.filter (fun c => decide (c.hash ∈ fc)) ≠ [] := by
        intro he
        apply hs0
        rw [show sortedFixing commits fc = [] from by rw [sortedFixing_eq, he]; rfl]
        rfl
      have hfq : commits.filter
          (fun c => decide (c.hash ∈ st1.fixing_commits)) ≠ [] := by
        intro he
        apply hs1
        rw [show sortedFixing commits st1.fixing_commits = [] from by
          rw [sortedFixing_eq, he]; rfl]
        rfl
      obtain ⟨Xp, midp, Zp, dp, hLp, htakep, _, _, hXp, hZp⟩ :=
        slice_split commits (fun c => decide (c.hash ∈ fc)) hnd hfp
      obtain ⟨Xq, midq, Zq, dq, hLq, htakeq, hqdq, hmidq, hXq, hZq⟩ :=
        slice_split commits (fun c => decide (c.hash ∈ st1.fixing_commits)) hnd hfq
      have hcs0 : minerWalkList commits fc = (dp :: midp).reverse := by
        rw [minerWalkList, walkList, sortedFixing_eq, htakep]
      have hcs1 : minerWalkList commits st1.fixing_commits = (dq :: midq).reverse := by
        rw [minerWalkList, walkList, sortedFixing_eq, htakeq]
      have hXpq : ∀ c ∈ Xp, decide (c.hash ∈ st1.fixing_commits) = false := by
        intro c hc
        have hcf : c.hash ∉ fc := by simpa using hXp c hc
        have hcq : c.hash ∉ st1.fixing_commits := fun hh => hcf (hsub1 hh)
        simpa using hcq
      have hZpq : ∀ c ∈ Zp, decide (c.hash ∈ st1.fixing_commits) = false := by
        intro c hc
        have hcf : c.hash ∉ fc := by simpa using hZp c hc
        have hcq : c.hash ∉ st1.fixing_commits := fun hh => hcf (hsub1 hh)
        simpa using hcq
      obtain ⟨B, A, hS0eq, hBq, hAq⟩ := slice_nest (List.Nodup.of_map _ hnd)
        hLp hLq hXpq hZpq hXq hZq hqdq hmidq
      have hcs0split : minerWalkList commits fc =
          A.reverse ++ ((dq :: midq).reverse ++ B.reverse) := by
        rw [hcs0, hS0eq]
        simp [List.reverse_append, List.append_assoc]
      rw [hcs0split, runWalk, List.foldlM_append] at h1
      cases hA : A.reverse.foldlM (processCommit ansible blame) ⟨fc, [], []⟩ with
      | error e =>
        rw [hA] at h1
        exact absurd ((error_bind _) ▸ h1) (by simp)
      | ok stA =>
        rw [hA, ok_bind, List.foldlM_append] at h1
        cases hM : (dq :: midq).reverse.foldlM (processCommit ansible blame) stA with
        | error e =>
          rw [hM] at h1
          exact absurd ((error_bind _) ▸ h1) (by simp)
        | ok stM =>
          rw [hM, ok_bind] at h1
          have hmemA : ∀ c ∈ A.reverse, c ∈ minerWalkList commits fc := by
            intro c hc
            rw [hcs0split]
            exact List.mem_append_left _ hc
          have hmemM : ∀ c ∈ (dq :: midq).reverse, c ∈ minerWalkList commits fc := by
            intro c hc
            rw [hcs0split]
            exact List.mem_append_right _ (List.mem_append_left _ hc)
          have hinertA : ∀ c ∈ A.reverse, anyAnsible ansible c = true →
              c.hash ∉ (⟨fc, [], []⟩ : MinerState).fixing_commits := by
            intro c hc ha hin
            have h1c : c.hash ∈ st1.fixing_commits := (hstab c (hmemA c hc) ha).mp hin
            have hqa : decide (c.hash ∈ st1.fixing_commits) = false :=
              hAq c (List.mem_reverse.mp hc)
            simp [h1c] at hqa
          obtain ⟨stT, hT, hTf, hTsub, hTr⟩ := runWalk_inert A.reverse ⟨fc, [], []⟩ hinertA
          have hTA : stT = stA := Except.ok.inj (hT.symm.trans hA)
          have hsubM : st1.fixing_commits ⊆ stM.fixing_commits :=
            (runWalk_fc_shrinks B.reverse stM st1 h1).1
          have hsubMA : stM.fixing_commits ⊆ stA.fixing_commits :=
            (runWalk_fc_shrinks _ stA stM hM).1
          have hsubAfc : stA.fixing_commits ⊆ fc := by
            rw [← hTA]
            exact hTsub
          have hAr : stA.renamed_files = [] := by
            rw [← hTA]
            exact hTr rfl
          have hAf : stA.fixing_files = [] := by
            rw [← hTA]
            exact hTf
          have hiffM : ∀ c ∈ (dq :: midq).reverse, anyAnsible ansible c = true →
              (c.hash ∈ stA.fixing_commits ↔
                c.hash ∈ (⟨st1.fixing_commits, [], []⟩ : MinerState).fixing_commits) := by
            intro c hc ha
            constructor
            · intro hin
              exact (hstab c (hmemM c hc) ha).mp (hsubAfc hin)
            · intro hin
              exact hsubMA (hsubM hin)
          obtain ⟨stB', hB', hBr, hBf, _⟩ := runWalk_congr (dq :: midq).reverse stA
            ⟨st1.fixing_commits, [], []⟩ stM hM (by rw [hAr]) (by rw [hAf])
            (fun x hx => hsubMA (hsubM hx)) hiffM
          have hndB : ((B.reverse).map Commit.hash).Nodup := by
            have hsubl : List.Sublist B.reverse (minerWalkList commits fc) := by
              rw [hcs0split]
              exact (List.sublist_append_right _ _).trans (List.sublist_append_right _ _)
            exact List.Nodup.sublist (hsubl.map _) hcs0nd
          have hinertB : ∀ c ∈ B.reverse, anyAnsible ansible c = true →
              c.hash ∉ stM.fixing_commits := by
            intro c hc ha hin
            have hq0 : decide (c.hash ∈ st1.fixing_commits) = false :=
              hBq c (List.mem_reverse.mp hc)
            have hstB : c.hash ∈ stM.fixing_commits ↔ c.hash ∈ st1.fixing_commits :=
              runWalk_ansible_stable hndB h1 hc ha
            have hm1 : c.hash ∈ st1.fixing_commits := hstB.mp hin
            simp [hm1] at hq0
          obtain ⟨stF, hF, hFf, _, _⟩ := runWalk_inert B.reverse stM hinertB
          have hFe : stF = st1 := Except.ok.inj (hF.symm.trans h1)
          refine ⟨stB', ?_, ?_⟩
          · rw [get_fixing_files_run, if_neg hs1, hcs1]
            exact hB'
          · rw [hBf]
            rw [show st1.fixing_files = stF.fixing_files from by rw [hFe]]
            exact hFf.symm

/-- Witness for C7: rerunning the resolver of `exCommits1` from the state
its first run leaves behind reproduces the two records. -/
theorem resolver_idempotent_witness :
    ∃ st2, get_fixing_files_run exCommits1 exAnsible exBlame1
        (MinerState.fixing_commits ⟨{"c3", "c5"}, [],
          [⟨some "y", {"b2"}, "c5"⟩, ⟨some "x", {"b1"}, "c3"⟩]⟩) = .ok st2 ∧
      st2.fixing_files = MinerState.fixing_files ⟨{"c3", "c5"}, [],
        [⟨some "y", {"b2"}, "c5"⟩, ⟨some "x", {"b1"}, "c3"⟩]⟩ :=
  resolver_idempotent exCommits1 exAnsible exBlame1 {"c3", "c5"}
    ⟨{"c3", "c5"}, [], [⟨some "y", {"b2"}, "c5"⟩, ⟨some "x", {"b1"}, "c3"⟩]⟩
    (by decide) (by decide)

end Radon
